import Mathlib

/-!
# CppFileAnalyzer: the line classification engine

A shallow embedding of `CppFileAnalyzer/cppfileanalyzer.cpp`.

* A `std::string` is a `List Char`, one element per `char`; positions are natural
  numbers and `std::string::npos` is `none`.  Lines are assumed shorter than
  `2^31` characters, so the `int` positions of the source never wrap.
* `std::vector<std::pair<TextType, std::string>>` is a `List (TextType × List Char)`.
* The `while (true)` loops and the `for` loop are given by their loop body, a
  function from the loop state to either the next state or the returned value,
  and run by `iterate` with a bound on the number of passes.  The bound is never
  reached (`textAnalyzerBody_halts`, `textAnalyzer_error`).
* `std::string::at` throws `std::out_of_range`; this is `Fault.outOfRange`.
  An unchecked `operator[]` outside its defined range is `Fault.badIndex`.
* The header `cppfileanalyzer.h` declares the default argument of the parameter
  `pos` of `processCStyleComment`; it is the parameter `dflt` here.  A natural
  number covers every `int`: a negative start position converts to a `size_t`
  beyond every line, as a large `dflt` does.
* The counters are natural numbers.
* In `allocateWork` an `int` has 32 bits and a `size_t` 64; the conversions between
  them are written out (`toInt`, `toSize`).
* `processFile` is given the file system as a function from a path to what opening
  and reading the file yields.  The tasks of the pool are executed one after another
  (`runTasks`); the class `ThreadPool` is not among the sources, and how many tasks
  its workers run between two tests of the loop condition of `allocateWork` is the
  parameter `pool` of that loop.
-/

namespace CppFileAnalyzer

/-! ## Data model -/

/-- The classification tag of a line (`enum class TextType`). -/
inductive TextType where
  | Unknown
  | BlankLine
  | Code
  | CStyleComment
  | CppStyleComment
  | CodeAndComment
  deriving DecidableEq, Repr

/-- The ways in which the embedded code can fail to return normally. -/
inductive Fault where
  /-- `std::out_of_range`, thrown by `std::string::at`. -/
  | outOfRange
  /-- An unchecked subscript outside its defined range. -/
  | badIndex
  /-- The bound on the number of loop passes was reached. -/
  | fuel
  deriving DecidableEq, Repr

/-- A `std::string`. -/
abbrev Str := List Char

/-- One element of the vector: `std::pair<TextType, std::string>`. -/
abbrev Line := TextType × Str

/-- The vector of tagged lines that `textAnalyzer` works on. -/
abbrev Text := List Line

/-- The four counters of the analyzer object. -/
structure Counters where
  filesNum : Nat
  blankLinesNum : Nat
  codeLinesNum : Nat
  commLinesNum : Nat
  deriving DecidableEq, Repr

/-! ## Loops -/

/-- What one pass through a loop body does: go round again, or return. -/
inductive Step (σ ρ : Type) where
  | next (s : σ)
  | ret (r : ρ)

/-- Run a loop body for at most `n` passes; `none` when the bound is reached. -/
def iterate {σ ρ : Type} (body : σ → Step σ ρ) : Nat → σ → Option ρ
  | 0, _ => none
  | n + 1, s =>
    match body s with
    | .ret r => some r
    | .next s' => iterate body n s'

/-- Run a loop whose result may be a fault. -/
def run {σ α : Type} (body : σ → Step σ (Except Fault α)) (n : Nat) (s : σ) :
    Except Fault α :=
  match iterate body n s with
  | some r => r
  | none => .error .fuel

/-! ## `std::string` operations -/

/-- The least index `p ≥ pos` of `s` whose character satisfies `f`. -/
def findIf (f : Char → Bool) : Str → Nat → Option Nat
  | [], _ => none
  | c :: cs, 0 => if f c then some 0 else (findIf f cs 0).map (· + 1)
  | _ :: cs, pos + 1 => (findIf f cs pos).map (· + 1)

/-- The call `s.find(c, pos)` for a character (or one-character string) `c`. -/
def find (s : Str) (c : Char) (pos : Nat) : Option Nat :=
  findIf (fun x => x == c) s pos

/-- The call `s.find_first_not_of(" \t", pos)`. -/
def find_first_not_of (s : Str) (pos : Nat) : Option Nat :=
  findIf (fun x => !(x == ' ' || x == '\t')) s pos

/-- The call `s.at(k)`: bounds-checked, `none` stands for `std::out_of_range`. -/
def strAt (s : Str) (k : Nat) : Option Char :=
  s[k]?

/-- The subscript `s[k]`: defined for `k ≤ s.size()`, and `s[s.size()]` is the
null character. -/
def subscript (s : Str) (k : Nat) : Option Char :=
  if k ≤ s.length then some (s[k]?.getD (Char.ofNat 0)) else none

/-- The assignment `text[j].first = t`. -/
def setFirst : Text → Nat → TextType → Text
  | [], _, _ => []
  | (_, s) :: rest, 0, t => (t, s) :: rest
  | l :: rest, j + 1, t => l :: setFirst rest j t

/-- The test `s.at(0) == a && s.at(1) == b`; `&&` evaluates `s.at(1)` only when
the first comparison holds. -/
def startsWith2 (s : Str) (a b : Char) : Except Fault Bool :=
  match strAt s 0 with
  | none => .error .outOfRange
  | some c0 =>
    if c0 = a then
      match strAt s 1 with
      | none => .error .outOfRange
      | some c1 => .ok (c1 == b)
    else .ok false

/-! ## `processCStyleComment` -/

/-- A bound on the passes of the scanning loops over `text`. -/
def scanFuel (text : Text) : Nat :=
  (text.map (fun l => l.2.length + 2)).sum + 1

/-- One pass of the `while (true)` loop of `processCStyleComment`; the state is
`(text, i, pos)`, the result the vector and the by-reference index `i`. -/
def processCStyleCommentBody (st : Text × Nat × Nat) :
    Step (Text × Nat × Nat) (Except Fault (Text × Nat)) :=
  match st with
  | (text, i, pos) =>
    match text[i]? with
    | none => .ret (.error .badIndex)
    | some (_, s) =>
      match find s '*' pos with
      | none =>
        if i < text.length - 1 then
          .next (setFirst text (i + 1) .CStyleComment, i + 1, 0)
        else .ret (.ok (text, i))
      | some p =>
        match subscript s (p + 1) with
        | none => .ret (.error .badIndex)
        | some c =>
          if c = '/' then
            match find_first_not_of s (p + 2) with
            | none => .ret (.ok (text, i))
            | some _ => .ret (.ok (setFirst text i .CodeAndComment, i))
          else .next (text, i, p + 1)

/-- The function `processCStyleComment(text, i, pos)`. -/
def processCStyleComment (text : Text) (i pos : Nat) : Except Fault (Text × Nat) :=
  match text[i]? with
  | none => .error .badIndex
  | some (tag, _) =>
    run processCStyleCommentBody (scanFuel text)
      (if tag = .Unknown then setFirst text i .CStyleComment else text, i, pos)

/-! ## `processQuotes` -/

/-- One pass of the `while (true)` loop of `processQuotes`; the state is
`(text, i, pos)`. -/
def processQuotesBody (st : Text × Nat × Nat) :
    Step (Text × Nat × Nat) (Except Fault (Text × Nat)) :=
  match st with
  | (text, i, pos) =>
    match text[i]? with
    | none => .ret (.error .badIndex)
    | some (_, s) =>
      match find s '"' pos with
      | none => .ret (.ok (text, i))
      | some q =>
        match find s '/' (q + 1) with
        | none => .ret (.ok (text, i))
        | some p =>
          match subscript s (p + 1) with
          | none => .ret (.error .badIndex)
          | some c =>
            if c = '/' then .ret (.ok (setFirst text i .CodeAndComment, i))
            else if c = '*' then
              match processCStyleComment (setFirst text i .CodeAndComment) i p with
              | .error e => .ret (.error e)
              | .ok (text', i') => .next (text', i', p)
            else .next (text, i, p)

/-- The function `processQuotes(text, i)`. -/
def processQuotes (text : Text) (i : Nat) : Except Fault (Text × Nat) :=
  match text[i]? with
  | none => .error .badIndex
  | some (tag, _) =>
    run processQuotesBody (scanFuel text)
      (if tag = .Unknown then setFirst text i .Code else text, i, 0)

/-! ## `textAnalyzer` -/

/-- One pass of the `for` loop of `textAnalyzer`, with its test `i < text.size()`
and its increment `++i`; the state is `(text, i)`.  `dflt` is the default
argument of the parameter `pos` of `processCStyleComment`, which is declared in
the header. -/
def textAnalyzerBody (dflt : Nat) (st : Text × Nat) :
    Step (Text × Nat) (Except Fault Text) :=
  match st with
  | (text, i) =>
    if i < text.length then
      match text[i]? with
      | none => .ret (.error .badIndex)
      | some (_, s) =>
        if s.length = 0 then .next (setFirst text i .BlankLine, i + 1)
        else
          match startsWith2 s '/' '/' with
          | .error e => .ret (.error e)
          | .ok true => .next (setFirst text i .CppStyleComment, i + 1)
          | .ok false =>
            match startsWith2 s '/' '*' with
            | .error e => .ret (.error e)
            | .ok true =>
              match processCStyleComment text i dflt with
              | .error e => .ret (.error e)
              | .ok (text', i') => .next (text', i' + 1)
            | .ok false =>
              match strAt s 0 with
              | none => .ret (.error .outOfRange)
              | some c0 =>
                if c0 = '"' then
                  match processQuotes text i with
                  | .error e => .ret (.error e)
                  | .ok (text', i') => .next (text', i' + 1)
                else
                  match find s '/' 0 with
                  | none => .next (setFirst text i .Code, i + 1)
                  | some pos =>
                    match subscript s (pos + 1) with
                    | none => .ret (.error .badIndex)
                    | some c1 =>
                      if c1 = '/' then
                        .next (setFirst (setFirst text i .Code) i .CodeAndComment, i + 1)
                      else if c1 = '*' then
                        match processCStyleComment
                            (setFirst (setFirst text i .Code) i .CodeAndComment) i pos with
                        | .error e => .ret (.error e)
                        | .ok (text', i') => .next (text', i' + 1)
                      else .next (setFirst text i .Code, i + 1)
    else .ret (.ok text)

/-- The `switch` of the summing loop of `textAnalyzer`, for one item. -/
def tally (c : Counters) (item : Line) : Counters :=
  match item.1 with
  | .BlankLine => { c with blankLinesNum := c.blankLinesNum + 1 }
  | .Code => { c with codeLinesNum := c.codeLinesNum + 1 }
  | .CStyleComment => { c with commLinesNum := c.commLinesNum + 1 }
  | .CppStyleComment => { c with commLinesNum := c.commLinesNum + 1 }
  | .CodeAndComment =>
    { c with commLinesNum := c.commLinesNum + 1, codeLinesNum := c.codeLinesNum + 1 }
  | .Unknown => c

/-- The function `textAnalyzer(text)`: the counters after the call and the vector
as the call leaves it. -/
def textAnalyzer (dflt : Nat) (c : Counters) (text : Text) :
    Except Fault (Counters × Text) :=
  (run (textAnalyzerBody dflt) (text.length + 1) (text, 0)).map
    (fun text' => (text'.foldl tally c, text'))

/-! ## Reading a file -/

/-- The C function `isblank` in the "C" locale. -/
def isblank (c : Char) : Bool :=
  c == ' ' || c == '\t'

/-- The `copy_if` of `processFile`: the characters of `line` that are not blank. -/
def stripBlanks (line : Str) : Str :=
  line.filter (fun c => !isblank c)

/-- The vector built by the reading loop of `processFile` from the raw lines. -/
def loadText (raw : List Str) : Text :=
  raw.map (fun line => (TextType.Unknown, stripBlanks line))

/-- The vector as `processFile` hands it to `textAnalyzer`: every line `Unknown`. -/
def untagged (lines : List Str) : Text :=
  lines.map (fun s => (TextType.Unknown, s))

/-! ## `processFile` -/

/-- The members of the analyzer object that `processFile` reads and writes: the queue
`files` and the four counters. -/
structure Analyzer (Path : Type) where
  files : List Path
  counters : Counters

/-- The function `processFile()`.  `fs file` is what opening and reading `file`
gives: `none` when the file cannot be opened, otherwise the lines that `std::getline`
reads.  The result is the object as the call leaves it, and the exception that ends
the call, if there is one (`textAnalyzer` throws before its summing loop). -/
def processFile {Path : Type} (dflt : Nat) (fs : Path → Option (List Str))
    (a : Analyzer Path) : Analyzer Path × Option Fault :=
  match a.files with
  | [] => (a, none)
  | file :: rest =>
    match fs file with
    | none => ({ files := rest, counters := a.counters }, none)
    | some raw =>
      match textAnalyzer dflt { a.counters with filesNum := a.counters.filesNum + 1 }
          (loadText raw) with
      | .error e =>
        ({ files := rest,
           counters := { a.counters with filesNum := a.counters.filesNum + 1 } }, some e)
      | .ok x => ({ files := rest, counters := x.1 }, none)

/-! ## `allocateWork` -/

/-- The conversion of an unsigned value to `int`: 32 bits, two's complement. -/
def toInt (x : Nat) : Int :=
  if x % 2 ^ 32 < 2 ^ 31 then ((x % 2 ^ 32 : Nat) : Int)
  else ((x % 2 ^ 32 : Nat) : Int) - 2 ^ 32

/-- The conversion of an `int` to `size_t`: 64 bits. -/
def toSize (v : Int) : Nat :=
  (v % 2 ^ 64).toNat

/-- The local `minPerThread`. -/
def minPerThread : Int := 2

/-- The local `maxThreads` for `n = files.size()`: the sum, the difference and the
quotient are computed in `size_t` and the result is converted to `int`. -/
def maxThreads (n : Nat) : Int :=
  toInt ((((n + toSize minPerThread) % 2 ^ 64 + (2 ^ 64 - toSize 1)) % 2 ^ 64) /
    toSize minPerThread)

/-- The local `supportedThreads` when `std::thread::hardware_concurrency()` returns
the unsigned value `h`. -/
def supportedThreads (h : Nat) : Int :=
  toInt h

/-- The local `numOfThreads`, the size of the pool. -/
def numOfThreads (n h : Nat) : Int :=
  min (if supportedThreads h = 0 then 4 else supportedThreads h) (maxThreads n)

/-- The local `step`: `files.size() / numOfThreads` in `size_t`, converted to `int`,
and then `!step ? 1 : step`; `none` when the divisor is zero. -/
def step (n h : Nat) : Option Int :=
  if toSize (numOfThreads n h) = 0 then none
  else
    some (if toInt (n / toSize (numOfThreads n h)) = 0 then 1
      else toInt (n / toSize (numOfThreads n h)))

/-- The calls of `processFile` made by `k` tasks that are executed one after
another, each on the object as the call before it left it. -/
def runTasks {Path : Type} (dflt : Nat) (fs : Path → Option (List Str)) :
    Nat → Analyzer Path → Analyzer Path
  | 0, a => a
  | k + 1, a => runTasks dflt fs k (processFile dflt fs a).1

/-- The state of the loop that hands the tasks to the pool: the loop variable `i`,
the object as the tasks that have run so far left it, the number of tasks handed to
the pool that have not run yet, and the number of calls of `pool.schedule` made. -/
structure Scheduling (Path : Type) where
  i : Nat
  object : Analyzer Path
  waiting : Nat
  tasks : Nat

/-- One pass of the loop `for (int i = 0; i < files.size(); i++) pool.schedule(fb)`.
The condition reads the size of the member `files` each time it is tested, and
`files` is the queue that the tasks pop.  The class `ThreadPool` is not among the
sources, so when its workers run the tasks is the parameter `pool`: `pool i` is the
number of tasks the workers run between the call `pool.schedule(fb)` of pass `i` and
the next test of the condition, never more than are waiting; each of them is a call
of `processFile` on the object.  The queue is taken to hold fewer than `2^31` paths,
so the counter `i` does not wrap. -/
def scheduleBody {Path : Type} (dflt : Nat) (fs : Path → Option (List Str))
    (pool : Nat → Nat) (s : Scheduling Path) :
    Step (Scheduling Path) (Except Fault (Scheduling Path)) :=
  if s.i < s.object.files.length then
    .next { i := s.i + 1
            object := runTasks dflt fs (min (pool s.i) (s.waiting + 1)) s.object
            waiting := s.waiting + 1 - min (pool s.i) (s.waiting + 1)
            tasks := s.tasks + 1 }
  else .ret (.ok s)

/-- What `allocateWork` has done when its loop ends: the size of the pool, the local
`step`, the number of tasks handed to the pool, how many of them have not run yet,
and the object as the tasks that have run left it. -/
structure Allocation (Path : Type) where
  numOfThreads : Int
  step : Option Int
  tasks : Nat
  waiting : Nat
  object : Analyzer Path

/-- The function `allocateWork()` on the object `a` when the hardware concurrency is
reported as `h`: `none` when there are no files to process. -/
def allocateWork {Path : Type} (dflt : Nat) (fs : Path → Option (List Str))
    (pool : Nat → Nat) (h : Nat) (a : Analyzer Path) :
    Except Fault (Option (Allocation Path)) :=
  if a.files.length = 0 then .ok none
  else
    (run (scheduleBody dflt fs pool) (a.files.length + 1)
        { i := 0, object := a, waiting := 0, tasks := 0 }).map
      (fun s => some { numOfThreads := numOfThreads a.files.length h
                       step := step a.files.length h
                       tasks := s.tasks
                       waiting := s.waiting
                       object := s.object })

/-! ## Specification vocabulary -/

/-- The loop started in state `s` returns `r` after finitely many passes. -/
inductive Halts {σ ρ : Type} (body : σ → Step σ ρ) : σ → ρ → Prop where
  | ret {s : σ} {r : ρ} : body s = .ret r → Halts body s r
  | next {s s' : σ} {r : ρ} : body s = .next s' → Halts body s' r → Halts body s r

/-- Prepend the line `l` to a returned vector and move the returned index along. -/
def consResult (l : Line) (r : Except Fault (Text × Nat)) : Except Fault (Text × Nat) :=
  r.map (fun x => (l :: x.1, x.2 + 1))

/-- The strings of the lines, without their tags. -/
def strings (text : Text) : List Str :=
  text.map Prod.snd

/-- The first `k` lines all carry a tag other than `Unknown`. -/
def tagged (text : Text) (k : Nat) : Prop :=
  ∀ j l, j < k → text[j]? = some l → l.1 ≠ TextType.Unknown

/-- The two characters `*/` stand at positions `p` and `p + 1` of `s`. -/
def closerAt (s : Str) (p : Nat) : Prop :=
  s[p]? = some '*' ∧ s[p + 1]? = some '/'

/-- The sum of two sets of counters. -/
def addCounters (a b : Counters) : Counters :=
  { filesNum := a.filesNum + b.filesNum
    blankLinesNum := a.blankLinesNum + b.blankLinesNum
    codeLinesNum := a.codeLinesNum + b.codeLinesNum
    commLinesNum := a.commLinesNum + b.commLinesNum }

/-- What processing the file `p` alone adds to zeroed counters. -/
def contribution {Path : Type} (dflt : Nat) (fs : Path → Option (List Str)) (p : Path) :
    Counters :=
  (processFile dflt fs { files := [p], counters := ⟨0, 0, 0, 0⟩ }).1.counters

/-- The line lengths. -/
def lens (text : Text) : List Nat :=
  text.map (fun l => l.2.length)

/-- A measure of the scanning work left from line `i`, position `pos`. -/
def scanMeasure : List Nat → Nat → Nat → Nat
  | [], _, _ => 0
  | n :: rest, 0, pos => (n + 1 - pos) + (rest.map (· + 2)).sum
  | _ :: rest, i + 1, pos => scanMeasure rest i pos

/-! ## Loops: general facts -/

section Loops

variable {σ ρ : Type} {body : σ → Step σ ρ}

theorem halts_of_iterate : ∀ (n : Nat) (s : σ) (r : ρ),
    iterate body n s = some r → Halts body s r := by
  intro n
  induction n with
  | zero => intro s r h; simp [iterate] at h
  | succ n ih =>
    intro s r h
    unfold iterate at h
    cases hb : body s with
    | ret r' =>
      rw [hb] at h
      simp only [Option.some.injEq] at h
      exact Halts.ret (h ▸ hb)
    | next s' =>
      rw [hb] at h
      exact Halts.next hb (ih s' r h)

theorem Halts.det {s : σ} {r r' : ρ} (h : Halts body s r) (h' : Halts body s r') :
    r = r' := by
  induction h with
  | ret hb =>
    cases h' with
    | ret hb' => rw [hb] at hb'; exact Step.ret.inj hb'
    | next hb' _ => rw [hb] at hb'; cases hb'
  | next hb _ ih =>
    cases h' with
    | ret hb' => rw [hb] at hb'; cases hb'
    | next hb' hr => rw [hb] at hb'; cases hb'; exact ih hr

theorem iterate_eq_of_halts {s : σ} {r : ρ} {n : Nat} (h : Halts body s r)
    (hn : (iterate body n s).isSome) : iterate body n s = some r := by
  obtain ⟨r', hr'⟩ := Option.isSome_iff_exists.mp hn
  rw [hr', (halts_of_iterate n s r' hr').det h]

theorem iterate_isSome_of_measure (μ : σ → Nat)
    (hdec : ∀ s s', body s = .next s' → μ s' < μ s) :
    ∀ (n : Nat) (s : σ), μ s < n → (iterate body n s).isSome := by
  intro n
  induction n with
  | zero => intro s h; omega
  | succ n ih =>
    intro s h
    unfold iterate
    cases hb : body s with
    | ret r => simp
    | next s' =>
      have := hdec s s' hb
      exact ih s' (by omega)

theorem Halts.inv {s : σ} {r : ρ} (I : σ → Prop) (Q : ρ → Prop)
    (hnext : ∀ s s', I s → body s = .next s' → I s')
    (hret : ∀ s r, I s → body s = .ret r → Q r)
    (h : Halts body s r) (hs : I s) : Q r := by
  induction h with
  | ret hb => exact hret _ _ hs hb
  | next hb _ ih => exact ih (hnext _ _ hs hb)

theorem Halts.sim {s : σ} {r : ρ} (g : σ → σ) (k : ρ → ρ)
    (hnext : ∀ s s', body s = .next s' → body (g s) = .next (g s'))
    (hret : ∀ s r, body s = .ret r → body (g s) = .ret (k r))
    (h : Halts body s r) : Halts body (g s) (k r) := by
  induction h with
  | ret hb => exact Halts.ret (hret _ _ hb)
  | next hb _ ih => exact Halts.next (hnext _ _ hb) ih

end Loops

theorem halts_run {σ α : Type} {body : σ → Step σ (Except Fault α)} {s : σ}
    {n : Nat} (hn : (iterate body n s).isSome) : Halts body s (run body n s) := by
  obtain ⟨r, hr⟩ := Option.isSome_iff_exists.mp hn
  unfold run
  rw [hr]
  exact halts_of_iterate n s r hr

/-! ## Facts about the string operations -/

theorem findIf_some (f : Char → Bool) : ∀ (s : Str) (pos p : Nat),
    findIf f s pos = some p →
      pos ≤ p ∧ p < s.length ∧ (∃ c, s[p]? = some c ∧ f c = true) ∧
        ∀ k c, pos ≤ k → k < p → s[k]? = some c → f c = false := by
  intro s
  induction s with
  | nil => intro pos p h; simp [findIf] at h
  | cons x xs ih =>
    intro pos p h
    cases pos with
    | zero =>
      simp only [findIf] at h
      split at h
      · rename_i hx
        simp only [Option.some.injEq] at h
        subst h
        refine ⟨le_refl _, by simp, ⟨x, by simp, hx⟩, ?_⟩
        intro k c _ hk; omega
      · rename_i hx
        cases hq : findIf f xs 0 with
        | none => rw [hq] at h; simp at h
        | some q =>
          rw [hq] at h
          simp only [Option.map_some', Option.some.injEq] at h
          subst h
          obtain ⟨_, h2, h3, h4⟩ := ih 0 q hq
          refine ⟨Nat.zero_le _, by simp; omega, by simpa using h3, ?_⟩
          intro k c _ hk hc
          cases k with
          | zero => simp at hc; subst hc; simpa using hx
          | succ k => exact h4 k c (Nat.zero_le _) (by omega) (by simpa using hc)
    | succ pos =>
      simp only [findIf] at h
      cases hq : findIf f xs pos with
      | none => rw [hq] at h; simp at h
      | some q =>
        rw [hq] at h
        simp only [Option.map_some', Option.some.injEq] at h
        subst h
        obtain ⟨h1, h2, h3, h4⟩ := ih pos q hq
        refine ⟨by omega, by simp; omega, by simpa using h3, ?_⟩
        intro k c hk1 hk2 hc
        cases k with
        | zero => omega
        | succ k => exact h4 k c (by omega) (by omega) (by simpa using hc)

theorem findIf_none (f : Char → Bool) : ∀ (s : Str) (pos : Nat),
    findIf f s pos = none ↔ ∀ k c, pos ≤ k → s[k]? = some c → f c = false := by
  intro s
  induction s with
  | nil => intro pos; simp [findIf]
  | cons x xs ih =>
    intro pos
    cases pos with
    | zero =>
      simp only [findIf]
      constructor
      · intro h k c _ hc
        split at h
        · simp at h
        · rename_i hx
          cases k with
          | zero => simp at hc; subst hc; simpa using hx
          | succ k =>
            have h' : findIf f xs 0 = none := by simpa using h
            exact (ih 0).mp h' k c (Nat.zero_le _) (by simpa using hc)
      · intro h
        have hx : f x = false := h 0 x (le_refl _) (by simp)
        simp only [hx, Bool.false_eq_true, if_false, Option.map_eq_none']
        exact (ih 0).mpr (fun k c _ hc => h (k + 1) c (Nat.zero_le _) (by simpa using hc))
    | succ pos =>
      simp only [findIf, Option.map_eq_none']
      rw [ih pos]
      constructor
      · intro h k c hk hc
        cases k with
        | zero => omega
        | succ k => exact h k c (by omega) (by simpa using hc)
      · intro h k c hk hc
        exact h (k + 1) c (by omega) (by simpa using hc)

theorem findIf_eq_some (f : Char → Bool) (s : Str) (pos p : Nat) (c : Char)
    (hp : pos ≤ p) (hc : s[p]? = some c) (hf : f c = true)
    (hmin : ∀ k c', pos ≤ k → k < p → s[k]? = some c' → f c' = false) :
    findIf f s pos = some p := by
  cases h : findIf f s pos with
  | none =>
    have := (findIf_none f s pos).mp h p c hp hc
    rw [hf] at this; cases this
  | some q =>
    obtain ⟨h1, h2, ⟨c', hc', hfc'⟩, h4⟩ := findIf_some f s pos q h
    rcases Nat.lt_trichotomy q p with hlt | heq | hgt
    · have := hmin q c' h1 hlt hc'
      rw [hfc'] at this; cases this
    · rw [heq]
    · have := h4 p c hp hgt hc
      rw [hf] at this; cases this

theorem length_setFirst : ∀ (text : Text) (j : Nat) (t : TextType),
    (setFirst text j t).length = text.length := by
  intro text
  induction text with
  | nil => intro j t; rfl
  | cons l rest ih =>
    intro j t
    cases j with
    | zero => obtain ⟨_, _⟩ := l; rfl
    | succ j => simp [setFirst, ih]

theorem strings_setFirst : ∀ (text : Text) (j : Nat) (t : TextType),
    strings (setFirst text j t) = strings text := by
  intro text
  induction text with
  | nil => intro j t; rfl
  | cons l rest ih =>
    intro j t
    cases j with
    | zero => obtain ⟨_, _⟩ := l; rfl
    | succ j =>
      have := ih j t
      simp only [strings] at this ⊢
      simp [setFirst, this]

theorem getElem?_setFirst : ∀ (text : Text) (j k : Nat) (t : TextType),
    (setFirst text j t)[k]? =
      if k = j then (text[j]?).map (fun l => (t, l.2)) else text[k]? := by
  intro text
  induction text with
  | nil => intro j k t; simp [setFirst]
  | cons l rest ih =>
    intro j k t
    obtain ⟨a, b⟩ := l
    cases j with
    | zero =>
      cases k with
      | zero => simp [setFirst]
      | succ k => simp [setFirst]
    | succ j =>
      cases k with
      | zero => simp [setFirst]
      | succ k => simp [setFirst, ih]

theorem lens_eq_of_strings {t t' : Text} (h : strings t' = strings t) : lens t' = lens t := by
  have e : ∀ u : Text, lens u = (strings u).map List.length := by
    intro u; simp [lens, strings, List.map_map, Function.comp_def]
  rw [e, e, h]

theorem length_eq_of_strings {t t' : Text} (h : strings t' = strings t) :
    t'.length = t.length := by
  have := congrArg List.length h
  simpa [strings] using this

/-! ## The scanning measure -/

theorem scanMeasure_lt_sum : ∀ (ls : List Nat) (i pos : Nat), i < ls.length →
    scanMeasure ls i pos < (ls.map (· + 2)).sum := by
  intro ls
  induction ls with
  | nil => intro i pos h; simp at h
  | cons n rest ih =>
    intro i pos h
    cases i with
    | zero => simp only [scanMeasure, List.map_cons, List.sum_cons]; omega
    | succ i =>
      have := ih i pos (by simpa using h)
      simp only [scanMeasure, List.map_cons, List.sum_cons]; omega

theorem scanMeasure_le_sum : ∀ (ls : List Nat) (i pos : Nat),
    scanMeasure ls i pos ≤ (ls.map (· + 2)).sum := by
  intro ls
  induction ls with
  | nil => intro i pos; simp [scanMeasure]
  | cons n rest ih =>
    intro i pos
    cases i with
    | zero => simp only [scanMeasure, List.map_cons, List.sum_cons]; omega
    | succ i =>
      have := ih i pos
      simp only [scanMeasure, List.map_cons, List.sum_cons]; omega

theorem scanMeasure_later : ∀ (ls : List Nat) (i j pos p : Nat), i < j → j < ls.length →
    scanMeasure ls j p < scanMeasure ls i pos := by
  intro ls
  induction ls with
  | nil => intro i j pos p _ h; simp at h
  | cons n rest ih =>
    intro i j pos p hij hj
    cases j with
    | zero => omega
    | succ j =>
      cases i with
      | zero =>
        have := scanMeasure_lt_sum rest j p (by simpa using hj)
        simp only [scanMeasure]; omega
      | succ i =>
        simp only [scanMeasure]
        exact ih i j pos p (by omega) (by simpa using hj)

theorem scanMeasure_advance : ∀ (ls : List Nat) (i pos p n : Nat), ls[i]? = some n →
    pos < p → p ≤ n → scanMeasure ls i p < scanMeasure ls i pos := by
  intro ls
  induction ls with
  | nil => intro i pos p n h; simp at h
  | cons m rest ih =>
    intro i pos p n h hp hn
    cases i with
    | zero =>
      simp at h; subst h
      simp only [scanMeasure]; omega
    | succ i =>
      simp only [scanMeasure]
      exact ih i pos p n (by simpa using h) hp hn

theorem scanMeasure_lt_scanFuel (t t0 : Text) (h : strings t = strings t0) (i pos : Nat) :
    scanMeasure (lens t) i pos < scanFuel t0 := by
  have h1 := scanMeasure_le_sum (lens t) i pos
  rw [lens_eq_of_strings h] at h1
  have h2 : scanFuel t0 = ((lens t0).map (· + 2)).sum + 1 := by
    simp [scanFuel, lens, List.map_map, Function.comp_def]
  rw [lens_eq_of_strings h, h2]
  omega

theorem lens_getElem? (t : Text) (i : Nat) (l : Line) (h : t[i]? = some l) :
    (lens t)[i]? = some l.2.length := by
  simp [lens, h]

/-! ## `processCStyleComment`: termination and frame -/

theorem processCStyleCommentBody_decreases (st st' : Text × Nat × Nat)
    (h : processCStyleCommentBody st = .next st') :
    scanMeasure (lens st'.1) st'.2.1 st'.2.2 < scanMeasure (lens st.1) st.2.1 st.2.2 := by
  obtain ⟨text, i, pos⟩ := st
  simp only [processCStyleCommentBody] at h
  split at h
  · cases h
  · rename_i tg s hl
    split at h
    · split at h
      · rename_i hi
        cases h
        simp only
        rw [lens_eq_of_strings (strings_setFirst _ _ _)]
        exact scanMeasure_later _ _ _ _ _ (Nat.lt_succ_self i) (by simp [lens]; omega)
      · cases h
    · rename_i p hp
      split at h
      · cases h
      · split at h
        · split at h <;> cases h
        · cases h
          obtain ⟨h1, h2, _, _⟩ := findIf_some _ s pos p hp
          show scanMeasure (lens text) i (p + 1) < scanMeasure (lens text) i pos
          exact scanMeasure_advance _ _ _ _ _ (lens_getElem? text i _ hl) (by omega) (by simpa using h2)

theorem processCStyleCommentBody_isSome (n : Nat) (st : Text × Nat × Nat)
    (h : scanMeasure (lens st.1) st.2.1 st.2.2 < n) :
    (iterate processCStyleCommentBody n st).isSome :=
  iterate_isSome_of_measure (fun st => scanMeasure (lens st.1) st.2.1 st.2.2)
    processCStyleCommentBody_decreases n st h

theorem processCStyleCommentBody_frame (t0 : Text) (i0 : Nat) (st : Text × Nat × Nat)
    (r : Except Fault (Text × Nat)) (h : Halts processCStyleCommentBody st r)
    (hs : strings st.1 = strings t0) (hi : i0 ≤ st.2.1) :
    ∀ t' i', r = .ok (t', i') → strings t' = strings t0 ∧ i0 ≤ i' ∧ i' < t'.length := by
  refine Halts.inv
    (fun st : Text × Nat × Nat => strings st.1 = strings t0 ∧ i0 ≤ st.2.1)
    (fun r => ∀ t' i', r = .ok (t', i') → strings t' = strings t0 ∧ i0 ≤ i' ∧ i' < t'.length)
    ?_ ?_ h ⟨hs, hi⟩
  · rintro ⟨text, i, pos⟩ st' ⟨h1, h2⟩ hb
    simp only [processCStyleCommentBody] at hb
    split at hb
    · cases hb
    · split at hb
      · split at hb
        · cases hb
          exact ⟨by simp only; rw [strings_setFirst]; exact h1, by simp only at h2 ⊢; omega⟩
        · cases hb
      · split at hb
        · cases hb
        · split at hb
          · split at hb <;> cases hb
          · cases hb; exact ⟨h1, h2⟩
  · rintro ⟨text, i, pos⟩ r ⟨h1, h2⟩ hb t' i' hr
    subst hr
    simp only [processCStyleCommentBody] at hb
    split at hb
    · cases hb
    · rename_i tg s hl
      have hlt : i < text.length := by
        by_contra hc
        rw [List.getElem?_eq_none (by omega)] at hl
        cases hl
      split at hb
      · split at hb
        · cases hb
        · cases hb; exact ⟨h1, h2, hlt⟩
      · split at hb
        · cases hb
        · split at hb
          · split at hb
            · cases hb; exact ⟨h1, h2, hlt⟩
            · cases hb
              exact ⟨by rw [strings_setFirst]; exact h1, h2, by rw [length_setFirst]; exact hlt⟩
          · cases hb

theorem processCStyleComment_halts (text : Text) (i pos : Nat) (tag : TextType) (s : Str)
    (hl : text[i]? = some (tag, s)) :
    Halts processCStyleCommentBody
      (if tag = .Unknown then setFirst text i .CStyleComment else text, i, pos)
      (processCStyleComment text i pos) := by
  simp only [processCStyleComment, hl]
  apply halts_run
  apply processCStyleCommentBody_isSome
  apply scanMeasure_lt_scanFuel
  split
  · exact strings_setFirst _ _ _
  · rfl

theorem processCStyleComment_frame (text : Text) (i pos : Nat) (t' : Text) (i' : Nat)
    (h : processCStyleComment text i pos = .ok (t', i')) :
    strings t' = strings text ∧ i ≤ i' ∧ i' < t'.length := by
  cases hl : text[i]? with
  | none => simp [processCStyleComment, hl] at h
  | some l =>
    obtain ⟨tag, s⟩ := l
    have hh := processCStyleComment_halts text i pos tag s hl
    refine processCStyleCommentBody_frame text i _ _ hh ?_ (le_refl _) t' i' h
    simp only
    split
    · exact strings_setFirst _ _ _
    · rfl

/-! ## `processQuotes`: termination and frame -/

theorem lt_length_of_getElem? {α : Type} {l : List α} {i : Nat} {a : α}
    (h : l[i]? = some a) : i < l.length := by
  by_contra hc
  rw [List.getElem?_eq_none (by omega)] at h
  cases h

theorem processQuotesBody_next (text : Text) (i pos : Nat) (st' : Text × Nat × Nat)
    (h : processQuotesBody (text, i, pos) = .next st') :
    strings st'.1 = strings text ∧ i ≤ st'.2.1 ∧
      scanMeasure (lens st'.1) st'.2.1 st'.2.2 < scanMeasure (lens text) i pos := by
  simp only [processQuotesBody] at h
  split at h
  · cases h
  · rename_i tg s hl
    split at h
    · cases h
    · rename_i q hq
      split at h
      · cases h
      · rename_i p hp
        obtain ⟨hq1, hq2, _, _⟩ := findIf_some _ s pos q hq
        obtain ⟨hp1, hp2, _, _⟩ := findIf_some _ s (q + 1) p hp
        have hadv : scanMeasure (lens text) i p < scanMeasure (lens text) i pos :=
          scanMeasure_advance _ _ _ _ _ (lens_getElem? text i _ hl) (by omega)
            (by simp only; omega)
        split at h
        · cases h
        · split at h
          · cases h
          · split at h
            · split at h
              · cases h
              · rename_i t' i' hc
                cases h
                obtain ⟨f1, f2, f3⟩ := processCStyleComment_frame _ _ _ _ _ hc
                rw [strings_setFirst] at f1
                refine ⟨f1, f2, ?_⟩
                show scanMeasure (lens t') i' p < scanMeasure (lens text) i pos
                rw [lens_eq_of_strings f1]
                rcases Nat.eq_or_lt_of_le f2 with he | hlt
                · rw [← he]; exact hadv
                · refine scanMeasure_later _ _ _ _ _ hlt ?_
                  have := length_eq_of_strings f1
                  simp only [lens, List.length_map]; omega
            · cases h
              exact ⟨rfl, le_refl _, hadv⟩

theorem processQuotesBody_ret (text : Text) (i pos : Nat) (t' : Text) (i' : Nat)
    (h : processQuotesBody (text, i, pos) = .ret (.ok (t', i'))) :
    strings t' = strings text ∧ i' = i ∧ i < text.length := by
  simp only [processQuotesBody] at h
  split at h
  · cases h
  · rename_i tg s hl
    have hlt := lt_length_of_getElem? hl
    split at h
    · cases h; exact ⟨rfl, rfl, hlt⟩
    · split at h
      · cases h; exact ⟨rfl, rfl, hlt⟩
      · split at h
        · cases h
        · split at h
          · cases h; exact ⟨strings_setFirst _ _ _, rfl, hlt⟩
          · split at h
            · split at h <;> cases h
            · cases h

theorem processQuotesBody_isSome (n : Nat) (st : Text × Nat × Nat)
    (h : scanMeasure (lens st.1) st.2.1 st.2.2 < n) :
    (iterate processQuotesBody n st).isSome :=
  iterate_isSome_of_measure (fun st => scanMeasure (lens st.1) st.2.1 st.2.2)
    (fun st st' hb => (processQuotesBody_next st.1 st.2.1 st.2.2 st' hb).2.2) n st h

theorem processQuotesBody_frame (t0 : Text) (i0 : Nat) (st : Text × Nat × Nat)
    (r : Except Fault (Text × Nat)) (h : Halts processQuotesBody st r)
    (hs : strings st.1 = strings t0) (hi : i0 ≤ st.2.1) :
    ∀ t' i', r = .ok (t', i') → strings t' = strings t0 ∧ i0 ≤ i' ∧ i' < t'.length := by
  refine Halts.inv
    (fun st : Text × Nat × Nat => strings st.1 = strings t0 ∧ i0 ≤ st.2.1)
    (fun r => ∀ t' i', r = .ok (t', i') → strings t' = strings t0 ∧ i0 ≤ i' ∧ i' < t'.length)
    ?_ ?_ h ⟨hs, hi⟩
  · rintro ⟨text, i, pos⟩ st' ⟨h1, h2⟩ hb
    obtain ⟨f1, f2, _⟩ := processQuotesBody_next text i pos st' hb
    exact ⟨f1.trans h1, le_trans h2 f2⟩
  · rintro ⟨text, i, pos⟩ r ⟨h1, h2⟩ hb t' i' hr
    subst hr
    obtain ⟨f1, f2, f3⟩ := processQuotesBody_ret text i pos t' i' hb
    subst f2
    refine ⟨f1.trans h1, h2, ?_⟩
    rw [length_eq_of_strings f1]; exact f3

theorem processQuotes_halts (text : Text) (i : Nat) (tag : TextType) (s : Str)
    (hl : text[i]? = some (tag, s)) :
    Halts processQuotesBody
      (if tag = .Unknown then setFirst text i .Code else text, i, 0)
      (processQuotes text i) := by
  simp only [processQuotes, hl]
  apply halts_run
  apply processQuotesBody_isSome
  apply scanMeasure_lt_scanFuel
  split
  · exact strings_setFirst _ _ _
  · rfl

theorem processQuotes_frame (text : Text) (i : Nat) (t' : Text) (i' : Nat)
    (h : processQuotes text i = .ok (t', i')) :
    strings t' = strings text ∧ i ≤ i' ∧ i' < t'.length := by
  cases hl : text[i]? with
  | none => simp [processQuotes, hl] at h
  | some l =>
    obtain ⟨tag, s⟩ := l
    have hh := processQuotes_halts text i tag s hl
    refine processQuotesBody_frame text i _ _ hh ?_ (le_refl _) t' i' h
    simp only
    split
    · exact strings_setFirst _ _ _
    · rfl

/-! ## `textAnalyzer`: termination and frame -/

theorem textAnalyzerBody_next (dflt : Nat) (text : Text) (i : Nat) (st' : Text × Nat)
    (h : textAnalyzerBody dflt (text, i) = .next st') :
    strings st'.1 = strings text ∧ i < st'.2 ∧ i < text.length := by
  simp only [textAnalyzerBody] at h
  split at h
  · rename_i hlt
    split at h
    · cases h
    · split at h
      · cases h; exact ⟨strings_setFirst _ _ _, Nat.lt_succ_self _, hlt⟩
      · split at h
        · cases h
        · cases h; exact ⟨strings_setFirst _ _ _, Nat.lt_succ_self _, hlt⟩
        · split at h
          · cases h
          · split at h
            · cases h
            · rename_i t' i' hc
              cases h
              obtain ⟨f1, f2, _⟩ := processCStyleComment_frame _ _ _ _ _ hc
              exact ⟨f1, Nat.lt_succ_of_le f2, hlt⟩
          · split at h
            · cases h
            · split at h
              · split at h
                · cases h
                · rename_i t' i' hc
                  cases h
                  obtain ⟨f1, f2, _⟩ := processQuotes_frame _ _ _ _ hc
                  exact ⟨f1, Nat.lt_succ_of_le f2, hlt⟩
              · split at h
                · cases h; exact ⟨strings_setFirst _ _ _, Nat.lt_succ_self _, hlt⟩
                · split at h
                  · cases h
                  · split at h
                    · cases h
                      exact ⟨(strings_setFirst _ _ _).trans (strings_setFirst _ _ _),
                        Nat.lt_succ_self _, hlt⟩
                    · split at h
                      · split at h
                        · cases h
                        · rename_i t' i' hc
                          cases h
                          obtain ⟨f1, f2, _⟩ := processCStyleComment_frame _ _ _ _ _ hc
                          rw [strings_setFirst, strings_setFirst] at f1
                          exact ⟨f1, Nat.lt_succ_of_le f2, hlt⟩
                      · cases h; exact ⟨strings_setFirst _ _ _, Nat.lt_succ_self _, hlt⟩
  · cases h

theorem textAnalyzerBody_isSome (dflt : Nat) (n : Nat) (st : Text × Nat)
    (h : st.1.length - st.2 < n) :
    (iterate (textAnalyzerBody dflt) n st).isSome := by
  refine iterate_isSome_of_measure (fun st : Text × Nat => st.1.length - st.2) ?_ n st h
  rintro ⟨text, i⟩ st' hb
  obtain ⟨f1, f2, f3⟩ := textAnalyzerBody_next dflt text i st' hb
  have := length_eq_of_strings f1
  simp only at f2 ⊢
  omega

theorem textAnalyzerBody_halts (dflt : Nat) (text : Text) :
    Halts (textAnalyzerBody dflt) (text, 0)
      (run (textAnalyzerBody dflt) (text.length + 1) (text, 0)) := by
  apply halts_run
  apply textAnalyzerBody_isSome
  simp

/-- The value of `textAnalyzer` from the value its `for` loop returns. -/
theorem textAnalyzer_eq_of_halts (dflt : Nat) (c : Counters) (text : Text)
    (r : Except Fault Text) (h : Halts (textAnalyzerBody dflt) (text, 0) r) :
    textAnalyzer dflt c text = r.map (fun text' => (text'.foldl tally c, text')) := by
  unfold textAnalyzer
  rw [(textAnalyzerBody_halts dflt text).det h]

/-! ## Lines before the current one do not matter -/

theorem processCStyleCommentBody_cons (l : Line) (text : Text) (i pos : Nat) :
    processCStyleCommentBody (l :: text, i + 1, pos) =
      match processCStyleCommentBody (text, i, pos) with
      | .next st => .next (l :: st.1, st.2.1 + 1, st.2.2)
      | .ret r => .ret (consResult l r) := by
  simp only [processCStyleCommentBody, List.getElem?_cons_succ, List.length_cons,
    Nat.add_sub_cancel]
  cases hl : text[i]? with
  | none => simp [consResult, Except.map]
  | some ln =>
    obtain ⟨tg, s⟩ := ln
    have hlt := lt_length_of_getElem? hl
    have e : (i + 1 < text.length) ↔ (i < text.length - 1) := by omega
    simp only [e]
    cases find s '*' pos with
    | none =>
      simp only
      split
      · simp [setFirst]
      · simp [consResult, Except.map]
    | some p =>
      simp only
      cases subscript s (p + 1) with
      | none => simp [consResult, Except.map]
      | some ch =>
        simp only
        split
        · cases find_first_not_of s (p + 2) <;> simp [consResult, Except.map, setFirst]
        · simp

theorem processCStyleCommentBody_halts_cons (l : Line) (st : Text × Nat × Nat)
    (r : Except Fault (Text × Nat)) (h : Halts processCStyleCommentBody st r) :
    Halts processCStyleCommentBody (l :: st.1, st.2.1 + 1, st.2.2) (consResult l r) := by
  refine Halts.sim (fun st : Text × Nat × Nat => (l :: st.1, st.2.1 + 1, st.2.2))
    (consResult l) ?_ ?_ h
  · rintro ⟨t, i, pos⟩ st' hb
    rw [processCStyleCommentBody_cons, hb]
  · rintro ⟨t, i, pos⟩ r' hb
    rw [processCStyleCommentBody_cons, hb]

theorem processCStyleComment_cons (l : Line) (text : Text) (i pos : Nat) :
    processCStyleComment (l :: text) (i + 1) pos =
      consResult l (processCStyleComment text i pos) := by
  cases hl : text[i]? with
  | none => simp [processCStyleComment, hl, consResult, Except.map]
  | some ln =>
    obtain ⟨tg, s⟩ := ln
    have h1 := processCStyleCommentBody_halts_cons l _ _
      (processCStyleComment_halts text i pos tg s hl)
    have h2 := processCStyleComment_halts (l :: text) (i + 1) pos tg s (by simpa using hl)
    refine h2.det ?_
    have e : (if tg = TextType.Unknown then setFirst (l :: text) (i + 1) .CStyleComment
        else l :: text) =
        l :: (if tg = TextType.Unknown then setFirst text i .CStyleComment else text) := by
      split <;> simp [setFirst]
    rw [e]
    exact h1

theorem processQuotesBody_cons (l : Line) (text : Text) (i pos : Nat) :
    processQuotesBody (l :: text, i + 1, pos) =
      match processQuotesBody (text, i, pos) with
      | .next st => .next (l :: st.1, st.2.1 + 1, st.2.2)
      | .ret r => .ret (consResult l r) := by
  simp only [processQuotesBody, List.getElem?_cons_succ]
  cases hl : text[i]? with
  | none => simp [consResult, Except.map]
  | some ln =>
    obtain ⟨tg, s⟩ := ln
    simp only
    cases find s '"' pos with
    | none => simp [consResult, Except.map]
    | some q =>
      simp only
      cases find s '/' (q + 1) with
      | none => simp [consResult, Except.map]
      | some p =>
        simp only
        cases subscript s (p + 1) with
        | none => simp [consResult, Except.map]
        | some ch =>
          simp only
          split
          · simp [consResult, Except.map, setFirst]
          · split
            · have e : setFirst (l :: text) (i + 1) .CodeAndComment =
                  l :: setFirst text i .CodeAndComment := by simp [setFirst]
              rw [e, processCStyleComment_cons]
              cases processCStyleComment (setFirst text i .CodeAndComment) i p with
              | error e => simp [consResult, Except.map]
              | ok x => obtain ⟨t', i'⟩ := x; simp [consResult, Except.map]
            · simp

theorem processQuotes_cons (l : Line) (text : Text) (i : Nat) :
    processQuotes (l :: text) (i + 1) = consResult l (processQuotes text i) := by
  cases hl : text[i]? with
  | none => simp [processQuotes, hl, consResult, Except.map]
  | some ln =>
    obtain ⟨tg, s⟩ := ln
    have h1 : Halts processQuotesBody
        (l :: (if tg = TextType.Unknown then setFirst text i .Code else text), i + 1, 0)
        (consResult l (processQuotes text i)) := by
      refine Halts.sim (fun st : Text × Nat × Nat => (l :: st.1, st.2.1 + 1, st.2.2))
        (consResult l) ?_ ?_ (processQuotes_halts text i tg s hl)
      · rintro ⟨t, i, pos⟩ st' hb
        rw [processQuotesBody_cons, hb]
      · rintro ⟨t, i, pos⟩ r' hb
        rw [processQuotesBody_cons, hb]
    have h2 := processQuotes_halts (l :: text) (i + 1) tg s (by simpa using hl)
    refine h2.det ?_
    have e : (if tg = TextType.Unknown then setFirst (l :: text) (i + 1) .Code
        else l :: text) =
        l :: (if tg = TextType.Unknown then setFirst text i .Code else text) := by
      split <;> simp [setFirst]
    rw [e]
    exact h1

theorem textAnalyzerBody_cons (dflt : Nat) (l : Line) (text : Text) (i : Nat) :
    textAnalyzerBody dflt (l :: text, i + 1) =
      match textAnalyzerBody dflt (text, i) with
      | .next st => .next (l :: st.1, st.2 + 1)
      | .ret r => .ret (r.map (fun t => l :: t)) := by
  simp only [textAnalyzerBody, List.getElem?_cons_succ, List.length_cons,
    Nat.add_lt_add_iff_right]
  split
  · cases hl : text[i]? with
    | none => simp [Except.map]
    | some ln =>
      obtain ⟨tg, s⟩ := ln
      simp only
      split
      · simp [setFirst]
      · cases startsWith2 s '/' '/' with
        | error e => simp [Except.map]
        | ok b =>
          cases b with
          | true => simp [setFirst]
          | false =>
            simp only
            cases startsWith2 s '/' '*' with
            | error e => simp [Except.map]
            | ok b =>
              cases b with
              | true =>
                simp only
                rw [processCStyleComment_cons]
                cases processCStyleComment text i dflt with
                | error e => simp [consResult, Except.map]
                | ok x => obtain ⟨t', i'⟩ := x; simp [consResult, Except.map]
              | false =>
                simp only
                cases strAt s 0 with
                | none => simp [Except.map]
                | some c0 =>
                  simp only
                  split
                  · rw [processQuotes_cons]
                    cases processQuotes text i with
                    | error e => simp [consResult, Except.map]
                    | ok x => obtain ⟨t', i'⟩ := x; simp [consResult, Except.map]
                  · cases find s '/' 0 with
                    | none => simp [setFirst]
                    | some pos =>
                      simp only
                      cases subscript s (pos + 1) with
                      | none => simp [Except.map]
                      | some c1 =>
                        simp only
                        split
                        · simp [setFirst]
                        · split
                          · have e : setFirst (setFirst (l :: text) (i + 1) .Code) (i + 1)
                                  .CodeAndComment =
                                l :: setFirst (setFirst text i .Code) i .CodeAndComment := by
                              simp [setFirst]
                            rw [e, processCStyleComment_cons]
                            cases processCStyleComment
                              (setFirst (setFirst text i .Code) i .CodeAndComment) i pos with
                            | error e => simp [consResult, Except.map]
                            | ok x => obtain ⟨t', i'⟩ := x; simp [consResult, Except.map]
                          · simp [setFirst]
  · simp [Except.map]

theorem textAnalyzerBody_halts_cons (dflt : Nat) (l : Line) (text : Text) (i : Nat)
    (r : Except Fault Text) (h : Halts (textAnalyzerBody dflt) (text, i) r) :
    Halts (textAnalyzerBody dflt) (l :: text, i + 1) (r.map (fun t => l :: t)) := by
  refine Halts.sim (fun st : Text × Nat => (l :: st.1, st.2 + 1))
    (fun r => r.map (fun t => l :: t)) ?_ ?_ h
  · rintro ⟨t, i⟩ st' hb
    rw [textAnalyzerBody_cons, hb]
  · rintro ⟨t, i⟩ r' hb
    rw [textAnalyzerBody_cons, hb]

theorem textAnalyzerBody_halts_append (dflt : Nat) (done text : Text) (i : Nat)
    (r : Except Fault Text) (h : Halts (textAnalyzerBody dflt) (text, i) r) :
    Halts (textAnalyzerBody dflt) (done ++ text, done.length + i)
      (r.map (fun t => done ++ t)) := by
  induction done with
  | nil =>
    have e : r.map (fun t => [] ++ t) = r := by cases r <;> rfl
    rw [e]
    simpa using h
  | cons l done ih =>
    have := textAnalyzerBody_halts_cons dflt l _ _ _ ih
    have e : (r.map (fun t => done ++ t)).map (fun t => l :: t) =
        r.map (fun t => l :: done ++ t) := by cases r <;> rfl
    rw [e] at this
    have e2 : (l :: done).length + i = done.length + i + 1 := by simp; omega
    rw [e2]
    exact this

theorem tally_comm (c : Counters) (a b : Line) :
    tally (tally c a) b = tally (tally c b) a := by
  obtain ⟨ta, sa⟩ := a
  obtain ⟨tb, sb⟩ := b
  cases ta <;> cases tb <;> rfl

theorem foldl_tally_tally (t : Text) : ∀ (c : Counters) (a : Line),
    t.foldl tally (tally c a) = tally (t.foldl tally c) a := by
  induction t with
  | nil => intro c a; rfl
  | cons b t ih =>
    intro c a
    simp only [List.foldl_cons]
    rw [tally_comm, ih]

theorem foldl_tally_foldl (done : Text) : ∀ (c : Counters) (t : Text),
    t.foldl tally (done.foldl tally c) = done.foldl tally (t.foldl tally c) := by
  induction done with
  | nil => intro c t; rfl
  | cons a done ih =>
    intro c t
    simp only [List.foldl_cons]
    rw [ih, foldl_tally_tally]

/-- Once the `for` loop has tagged the lines `done` and stands at the first of the
remaining lines, which are still as `textAnalyzer` received them, the call does to
the remaining lines what a call on them alone would do. -/
theorem textAnalyzer_after_done (dflt : Nat) (c : Counters) (whole done rest : Text)
    (h : ∀ r, Halts (textAnalyzerBody dflt) (done ++ rest, done.length) r →
      Halts (textAnalyzerBody dflt) (whole, 0) r) :
    textAnalyzer dflt c whole =
      (textAnalyzer dflt c rest).map (fun x => (done.foldl tally x.1, done ++ x.2)) := by
  have h0 := textAnalyzerBody_halts dflt rest
  have h1 := h _ (textAnalyzerBody_halts_append dflt done rest 0 _ h0)
  rw [textAnalyzer_eq_of_halts dflt c whole _ h1]
  unfold textAnalyzer
  cases run (textAnalyzerBody dflt) (rest.length + 1) (rest, 0) with
  | error e => rfl
  | ok t => simp [Except.map, List.foldl_append, foldl_tally_foldl]

/-- The same when one pass of the `for` loop tags the first line and moves to the
second. -/
theorem textAnalyzer_cons_of_next (dflt : Nat) (c : Counters) (l : Str) (tg : TextType)
    (rest : List Str)
    (h : textAnalyzerBody dflt (untagged (l :: rest), 0) = .next ((tg, l) :: untagged rest, 1)) :
    textAnalyzer dflt c (untagged (l :: rest)) =
      (textAnalyzer dflt c (untagged rest)).map
        (fun x => (tally x.1 (tg, l), (tg, l) :: x.2)) := by
  have := textAnalyzer_after_done dflt c (untagged (l :: rest)) [(tg, l)] (untagged rest)
    (fun r hr => Halts.next h hr)
  simpa using this

theorem getElem?_append_at {α : Type} (a b : List α) (c : α) :
    (a ++ c :: b)[a.length]? = some c := by
  rw [List.getElem?_append_right (le_refl _)]
  simp

theorem getElem?_append_at_succ {α : Type} (a b : List α) (c d : α) :
    (a ++ c :: d :: b)[a.length + 1]? = some d := by
  rw [List.getElem?_append_right (by omega)]
  simp

theorem mem_of_getElem?_append {α : Type} (a b : List α) (k : Nat) (x : α)
    (hk : k < a.length) (h : (a ++ b)[k]? = some x) : x ∈ a := by
  rw [List.getElem?_append_left hk] at h
  exact List.getElem?_mem h

/-! ## No line is left `Unknown` -/

theorem tagged_setFirst (t : Text) (j k k' : Nat) (x : TextType) (hx : x ≠ .Unknown)
    (hk : ∀ m, m < k' → m ≠ j → m < k) (h : tagged t k) : tagged (setFirst t j x) k' := by
  intro m l hm hl
  rw [getElem?_setFirst] at hl
  split at hl
  · cases hj : t[j]? with
    | none => rw [hj] at hl; cases hl
    | some l0 => rw [hj] at hl; cases hl; exact hx
  · rename_i hne
    exact h m l (hk m hm hne) hl

theorem tagged_succ (t : Text) (i : Nat) (h : tagged t i)
    (hi : ∀ l, t[i]? = some l → l.1 ≠ TextType.Unknown) : tagged t (i + 1) := by
  intro m l hm hl
  rcases Nat.lt_succ_iff_lt_or_eq.mp hm with h1 | h1
  · exact h m l h1 hl
  · subst h1; exact hi l hl

theorem processCStyleCommentBody_tagged (st : Text × Nat × Nat)
    (r : Except Fault (Text × Nat)) (h : Halts processCStyleCommentBody st r)
    (hs : tagged st.1 (st.2.1 + 1)) :
    ∀ t' i', r = .ok (t', i') → tagged t' (i' + 1) := by
  refine Halts.inv (fun st : Text × Nat × Nat => tagged st.1 (st.2.1 + 1))
    (fun r => ∀ t' i', r = .ok (t', i') → tagged t' (i' + 1)) ?_ ?_ h hs
  · rintro ⟨text, i, pos⟩ st' h1 hb
    simp only [processCStyleCommentBody] at hb
    split at hb
    · cases hb
    · split at hb
      · split at hb
        · cases hb
          have h1' : tagged text (i + 1) := h1
          show tagged (setFirst text (i + 1) .CStyleComment) (i + 1 + 1)
          exact tagged_setFirst _ _ (i + 1) _ _ (by decide) (by intro m _ _; omega) h1'
        · cases hb
      · split at hb
        · cases hb
        · split at hb
          · split at hb <;> cases hb
          · cases hb; exact h1
  · rintro ⟨text, i, pos⟩ r h1 hb t' i' hr
    subst hr
    simp only [processCStyleCommentBody] at hb
    split at hb
    · cases hb
    · split at hb
      · split at hb
        · cases hb
        · cases hb; exact h1
      · split at hb
        · cases hb
        · split at hb
          · split at hb
            · cases hb; exact h1
            · cases hb
              exact tagged_setFirst _ _ _ _ _ (by decide) (fun m hm _ => hm) h1
          · cases hb

theorem tagged_start (text : Text) (i : Nat) (tag : TextType) (s : Str) (x : TextType)
    (hx : x ≠ .Unknown) (hl : text[i]? = some (tag, s)) (h : tagged text i) :
    tagged (if tag = .Unknown then setFirst text i x else text) (i + 1) := by
  split
  · exact tagged_setFirst _ _ i _ _ hx (by intro m _ _; omega) h
  · rename_i hne
    refine tagged_succ _ _ h ?_
    intro l hl'
    rw [hl] at hl'
    cases hl'
    exact hne

theorem processCStyleComment_tagged (text : Text) (i pos : Nat) (t' : Text) (i' : Nat)
    (h : processCStyleComment text i pos = .ok (t', i')) (ht : tagged text i) :
    tagged t' (i' + 1) := by
  cases hl : text[i]? with
  | none => simp [processCStyleComment, hl] at h
  | some l =>
    obtain ⟨tag, s⟩ := l
    exact processCStyleCommentBody_tagged _ _ (processCStyleComment_halts text i pos tag s hl)
      (tagged_start text i tag s _ (by decide) hl ht) t' i' h

theorem processQuotesBody_tagged (st : Text × Nat × Nat)
    (r : Except Fault (Text × Nat)) (h : Halts processQuotesBody st r)
    (hs : tagged st.1 (st.2.1 + 1)) :
    ∀ t' i', r = .ok (t', i') → tagged t' (i' + 1) := by
  refine Halts.inv (fun st : Text × Nat × Nat => tagged st.1 (st.2.1 + 1))
    (fun r => ∀ t' i', r = .ok (t', i') → tagged t' (i' + 1)) ?_ ?_ h hs
  · rintro ⟨text, i, pos⟩ st' h1 hb
    simp only [processQuotesBody] at hb
    split at hb
    · cases hb
    · split at hb
      · cases hb
      · split at hb
        · cases hb
        · split at hb
          · cases hb
          · split at hb
            · cases hb
            · split at hb
              · split at hb
                · cases hb
                · rename_i t' i' hc
                  cases hb
                  have h1' : tagged text (i + 1) := h1
                  refine processCStyleComment_tagged _ _ _ _ _ hc ?_
                  exact tagged_setFirst _ _ _ _ _ (by decide) (fun m hm _ => by omega) h1'
              · cases hb; exact h1
  · rintro ⟨text, i, pos⟩ r h1 hb t' i' hr
    subst hr
    simp only [processQuotesBody] at hb
    split at hb
    · cases hb
    · split at hb
      · cases hb; exact h1
      · split at hb
        · cases hb; exact h1
        · split at hb
          · cases hb
          · split at hb
            · cases hb
              exact tagged_setFirst _ _ _ _ _ (by decide) (fun m hm _ => hm) h1
            · split at hb
              · split at hb <;> cases hb
              · cases hb

theorem processQuotes_tagged (text : Text) (i : Nat) (t' : Text) (i' : Nat)
    (h : processQuotes text i = .ok (t', i')) (ht : tagged text i) :
    tagged t' (i' + 1) := by
  cases hl : text[i]? with
  | none => simp [processQuotes, hl] at h
  | some l =>
    obtain ⟨tag, s⟩ := l
    exact processQuotesBody_tagged _ _ (processQuotes_halts text i tag s hl)
      (tagged_start text i tag s _ (by decide) hl ht) t' i' h

theorem textAnalyzerBody_tagged (dflt : Nat) (text : Text) (i : Nat) (st' : Text × Nat)
    (h : textAnalyzerBody dflt (text, i) = .next st') (ht : tagged text i) :
    tagged st'.1 st'.2 := by
  have hset : ∀ x : TextType, x ≠ .Unknown → tagged (setFirst text i x) (i + 1) :=
    fun x hx => tagged_setFirst _ _ i _ _ hx (by intro m _ _; omega) ht
  simp only [textAnalyzerBody] at h
  split at h
  · split at h
    · cases h
    · split at h
      · cases h; exact hset _ (by decide)
      · split at h
        · cases h
        · cases h; exact hset _ (by decide)
        · split at h
          · cases h
          · split at h
            · cases h
            · rename_i t' i' hc
              cases h
              exact processCStyleComment_tagged _ _ _ _ _ hc ht
          · split at h
            · cases h
            · split at h
              · split at h
                · cases h
                · rename_i t' i' hc
                  cases h
                  exact processQuotes_tagged _ _ _ _ hc ht
              · split at h
                · cases h; exact hset _ (by decide)
                · split at h
                  · cases h
                  · split at h
                    · cases h
                      exact tagged_setFirst _ _ _ _ _ (by decide) (fun m hm _ => hm)
                        (hset _ (by decide))
                    · split at h
                      · split at h
                        · cases h
                        · rename_i t' i' hc
                          cases h
                          refine processCStyleComment_tagged _ _ _ _ _ hc ?_
                          exact tagged_setFirst _ _ _ _ _ (by decide) (fun m hm _ => by omega)
                            (hset _ (by decide))
                      · cases h; exact hset _ (by decide)
  · cases h

theorem textAnalyzerBody_ret (dflt : Nat) (text : Text) (i : Nat) (t' : Text)
    (h : textAnalyzerBody dflt (text, i) = .ret (.ok t')) : t' = text ∧ text.length ≤ i := by
  simp only [textAnalyzerBody] at h
  split at h
  · split at h
    · cases h
    · split at h
      · cases h
      · split at h
        · cases h
        · cases h
        · split at h
          · cases h
          · split at h <;> cases h
          · split at h
            · cases h
            · split at h
              · split at h <;> cases h
              · split at h
                · cases h
                · split at h
                  · cases h
                  · split at h
                    · cases h
                    · split at h
                      · split at h <;> cases h
                      · cases h
  · cases h
    exact ⟨rfl, by omega⟩

theorem textAnalyzerBody_result (dflt : Nat) (text : Text) (t' : Text)
    (h : Halts (textAnalyzerBody dflt) (text, 0) (.ok t')) :
    strings t' = strings text ∧ ∀ l ∈ t', l.1 ≠ TextType.Unknown := by
  have key := Halts.inv
    (fun st : Text × Nat => strings st.1 = strings text ∧ tagged st.1 st.2)
    (fun r => ∀ t', r = .ok t' → strings t' = strings text ∧ tagged t' t'.length)
    (by
      rintro ⟨t, i⟩ st' ⟨h1, h2⟩ hb
      exact ⟨(textAnalyzerBody_next dflt t i st' hb).1.trans h1,
        textAnalyzerBody_tagged dflt t i st' hb h2⟩)
    (by
      rintro ⟨t, i⟩ r ⟨h1, h2⟩ hb t' hr
      subst hr
      obtain ⟨e, hle⟩ := textAnalyzerBody_ret dflt t i t' hb
      subst e
      refine ⟨h1, ?_⟩
      intro m l hm hl
      exact h2 m l (by omega) hl)
    h ⟨rfl, fun m l hm _ => absurd hm (Nat.not_lt_zero _)⟩ t' rfl
  refine ⟨key.1, ?_⟩
  intro l hl
  obtain ⟨n, hn⟩ := List.getElem?_of_mem hl
  exact key.2 n l (lt_length_of_getElem? hn) hn

theorem foldl_tally_sum (t : Text) : ∀ (c : Counters),
    (∀ l ∈ t, l.1 ≠ TextType.Unknown) →
      c.blankLinesNum ≤ (t.foldl tally c).blankLinesNum ∧
      c.codeLinesNum ≤ (t.foldl tally c).codeLinesNum ∧
      c.commLinesNum ≤ (t.foldl tally c).commLinesNum ∧
      (t.foldl tally c).blankLinesNum + (t.foldl tally c).codeLinesNum +
          (t.foldl tally c).commLinesNum =
        c.blankLinesNum + c.codeLinesNum + c.commLinesNum + t.length +
          t.countP (fun l => l.1 = TextType.CodeAndComment) := by
  induction t with
  | nil => intro c _; simp
  | cons a t ih =>
    intro c h
    have ha := h a (List.mem_cons_self _ _)
    obtain ⟨i1, i2, i3, i4⟩ := ih (tally c a) (fun l hl => h l (List.mem_cons_of_mem _ hl))
    obtain ⟨tg, sa⟩ := a
    have hf : c.blankLinesNum ≤ (tally c (tg, sa)).blankLinesNum ∧
        c.codeLinesNum ≤ (tally c (tg, sa)).codeLinesNum ∧
        c.commLinesNum ≤ (tally c (tg, sa)).commLinesNum ∧
        (tally c (tg, sa)).blankLinesNum + (tally c (tg, sa)).codeLinesNum +
            (tally c (tg, sa)).commLinesNum =
          c.blankLinesNum + c.codeLinesNum + c.commLinesNum + 1 +
            (if tg = TextType.CodeAndComment then 1 else 0) := by
      cases tg
      · exact absurd rfl ha
      all_goals
        simp only [tally]
        refine ⟨by omega, by omega, by omega, ?_⟩
        simp
        try omega
    obtain ⟨f1, f2, f3, f4⟩ := hf
    simp only [List.foldl_cons, List.length_cons, List.countP_cons]
    generalize tally c (tg, sa) = c1 at *
    refine ⟨by omega, by omega, by omega, ?_⟩
    by_cases hcac : tg = TextType.CodeAndComment
    · simp only [hcac, if_true] at f4
      simp only [hcac, decide_True, if_true]
      omega
    · simp only [hcac, if_false] at f4
      simp only [hcac, decide_False]
      simp
      omega

/-! ## The block-comment scan -/

theorem infix_of_closerAt : ∀ (s : Str) (p : Nat), closerAt s p → ['*', '/'] <:+: s := by
  intro s
  induction s with
  | nil => intro p h; simp [closerAt] at h
  | cons x xs ih =>
    intro p h
    cases p with
    | zero =>
      obtain ⟨h1, h2⟩ := h
      simp only [List.getElem?_cons_zero, Option.some.injEq] at h1
      simp only [Nat.zero_add, List.getElem?_cons_succ] at h2
      cases xs with
      | nil => simp at h2
      | cons y ys =>
        simp only [List.getElem?_cons_zero, Option.some.injEq] at h2
        subst h1 h2
        exact ⟨[], ys, rfl⟩
    | succ p =>
      have h' : closerAt xs p := by
        obtain ⟨h1, h2⟩ := h
        exact ⟨by simpa using h1, by simpa using h2⟩
      obtain ⟨a, b, hab⟩ := ih p h'
      exact ⟨x :: a, b, by simp [← hab]⟩

theorem closerAt_append (a b : Str) : closerAt (a ++ '*' :: '/' :: b) a.length :=
  ⟨getElem?_append_at a _ '*', getElem?_append_at_succ a b '*' '/'⟩

theorem not_closerAt_before (a b : Str) (h : ¬ ['*', '/'] <:+: a ++ ['*']) (k : Nat)
    (hk : k < a.length) : ¬ closerAt (a ++ '*' :: '/' :: b) k := by
  intro hc
  apply h
  apply infix_of_closerAt _ k
  obtain ⟨h1, h2⟩ := hc
  rw [List.getElem?_append_left hk] at h1
  constructor
  · rw [List.getElem?_append_left hk]
    exact h1
  · rcases Nat.lt_or_ge (k + 1) a.length with h3 | h3
    · rw [List.getElem?_append_left h3] at h2
      rw [List.getElem?_append_left h3]
      exact h2
    · have e : k + 1 = a.length := by omega
      rw [e, getElem?_append_at a ('/' :: b) '*'] at h2
      exact absurd h2 (by decide)

theorem subscript_succ_of_lt (s : Str) (p : Nat) (h : p < s.length) :
    subscript s (p + 1) = some (s[p + 1]?.getD (Char.ofNat 0)) := by
  simp only [subscript]
  rw [if_pos (by omega)]

theorem getD_eq_slash (o : Option Char) : o.getD (Char.ofNat 0) = '/' ↔ o = some '/' := by
  cases o with
  | none => simp
  | some c => simp

/-- From position `pos` of a first line without `*/`, the scan reaches a pass in
which no `*` is found. -/
theorem scan_line_without_closer (tg : TextType) (s : Str) (rest : Text)
    (r : Except Fault (Text × Nat)) (hno : ∀ p, ¬ closerAt s p)
    (hend : ∀ pos, find s '*' pos = none →
      Halts processCStyleCommentBody ((tg, s) :: rest, 0, pos) r) :
    ∀ (n pos : Nat), s.length - pos ≤ n →
      Halts processCStyleCommentBody ((tg, s) :: rest, 0, pos) r := by
  intro n
  induction n with
  | zero =>
    intro pos hn
    apply hend
    cases hf : find s '*' pos with
    | none => rfl
    | some p =>
      obtain ⟨h1, h2, _, _⟩ := findIf_some _ s pos p hf
      omega
  | succ n ih =>
    intro pos hn
    cases hf : find s '*' pos with
    | none => exact hend pos hf
    | some p =>
      obtain ⟨h1, h2, ⟨ch, hch, hstar⟩, _⟩ := findIf_some _ s pos p hf
      have hstar' : ch = '*' := by simpa using hstar
      subst hstar'
      have hne : ¬ (s[p + 1]?.getD (Char.ofNat 0) = '/') := by
        rw [getD_eq_slash]
        exact fun h => hno p ⟨hch, h⟩
      refine Halts.next ?_ (ih (p + 1) (by omega))
      simp [processCStyleCommentBody, hf, subscript_succ_of_lt s p h2, hne]

/-- From position `pos` of a first line whose first `*/` at or after `pos` stands at
`p`, the scan returns on that line. -/
theorem scan_line_with_closer (tg : TextType) (s : Str) (rest : Text) (p : Nat)
    (hp : closerAt s p) :
    ∀ (n pos : Nat), p - pos ≤ n → pos ≤ p → (∀ k, pos ≤ k → k < p → ¬ closerAt s k) →
      Halts processCStyleCommentBody ((tg, s) :: rest, 0, pos)
        (.ok ((if find_first_not_of s (p + 2) = none then tg else .CodeAndComment, s) :: rest,
          0)) := by
  intro n
  induction n with
  | zero =>
    intro pos hn hle hmin
    have e : pos = p := by omega
    subst e
    have hf : find s '*' pos = some pos :=
      findIf_eq_some _ s pos pos '*' (le_refl _) hp.1 (by simp) (by intro k _ _ hk; omega)
    have hlt : pos < s.length := lt_length_of_getElem? hp.1
    have hsl : s[pos + 1]?.getD (Char.ofNat 0) = '/' := (getD_eq_slash _).mpr hp.2
    apply Halts.ret
    simp only [processCStyleCommentBody, List.getElem?_cons_zero, hf,
      subscript_succ_of_lt s pos hlt, hsl, if_true]
    cases find_first_not_of s (pos + 2) <;> simp [setFirst]
  | succ n ih =>
    intro pos hn hle hmin
    cases hf : find s '*' pos with
    | none =>
      have := (findIf_none _ s pos).mp hf p '*' hle hp.1
      simp at this
    | some q =>
      obtain ⟨h1, h2, ⟨ch, hch, hstar⟩, h4⟩ := findIf_some _ s pos q hf
      have hstar' : ch = '*' := by simpa using hstar
      subst hstar'
      have hqp : q ≤ p := by
        by_contra hc
        have := h4 p '*' hle (by omega) hp.1
        simp at this
      rcases Nat.eq_or_lt_of_le hqp with he | hlt
      · subst he
        have hsl : s[q + 1]?.getD (Char.ofNat 0) = '/' := (getD_eq_slash _).mpr hp.2
        apply Halts.ret
        simp only [processCStyleCommentBody, List.getElem?_cons_zero, hf,
          subscript_succ_of_lt s q h2, hsl, if_true]
        cases find_first_not_of s (q + 2) <;> simp [setFirst]
      · have hne : ¬ (s[q + 1]?.getD (Char.ofNat 0) = '/') := by
          rw [getD_eq_slash]
          exact fun h => hmin q h1 hlt ⟨hch, h⟩
        refine Halts.next ?_
          (ih (q + 1) (by omega) (by omega) (fun k hk1 hk2 => hmin k (by omega) hk2))
        simp [processCStyleCommentBody, hf, subscript_succ_of_lt s q h2, hne]

/-- With no `*/` on the current line nor on any later one, the scan tags every later
line CStyleComment and returns at the last line. -/
theorem scan_all_comment : ∀ (t : Text) (cur : Line) (pos : Nat),
    (∀ p, ¬ closerAt cur.2 p) → (∀ l ∈ t, ∀ p, ¬ closerAt l.2 p) →
      Halts processCStyleCommentBody (cur :: t, 0, pos)
        (.ok (cur :: t.map (fun l => (TextType.CStyleComment, l.2)), t.length)) := by
  intro t
  induction t with
  | nil =>
    intro cur pos hcur _
    obtain ⟨tg, s⟩ := cur
    refine scan_line_without_closer tg s [] _ hcur ?_ _ pos (le_refl _)
    intro pos' hf
    apply Halts.ret
    simp [processCStyleCommentBody, hf]
  | cons nxt t ih =>
    intro cur pos hcur hrest
    obtain ⟨tg, s⟩ := cur
    refine scan_line_without_closer tg s (nxt :: t) _ hcur ?_ _ pos (le_refl _)
    intro pos' hf
    have h1 := ih (TextType.CStyleComment, nxt.2) 0 (hrest nxt (List.mem_cons_self _ _))
      (fun l hl => hrest l (List.mem_cons_of_mem _ hl))
    have h2 := processCStyleCommentBody_halts_cons (tg, s) _ _ h1
    refine Halts.next ?_ h2
    obtain ⟨tn, sn⟩ := nxt
    simp [processCStyleCommentBody, hf, setFirst]

theorem processCStyleComment_eq_of_halts (text : Text) (i pos : Nat) (tag : TextType)
    (s : Str) (r : Except Fault (Text × Nat)) (hl : text[i]? = some (tag, s))
    (h : Halts processCStyleCommentBody
      (if tag = .Unknown then setFirst text i .CStyleComment else text, i, pos) r) :
    processCStyleComment text i pos = r :=
  (processCStyleComment_halts text i pos tag s hl).det h

/-- The pass of the `for` loop on a first line beginning with `/*`. -/
theorem textAnalyzerBody_block_start (dflt : Nat) (tl : Str) (others : List Str)
    (t' : Text) (i' : Nat)
    (h : Halts processCStyleCommentBody
      ((TextType.CStyleComment, '/' :: '*' :: tl) :: untagged others, 0, dflt)
      (.ok (t', i'))) :
    textAnalyzerBody dflt (untagged (('/' :: '*' :: tl) :: others), 0) = .next (t', i' + 1) := by
  have hc : processCStyleComment (untagged (('/' :: '*' :: tl) :: others)) 0 dflt =
      .ok (t', i') := by
    refine processCStyleComment_eq_of_halts _ 0 dflt .Unknown ('/' :: '*' :: tl) _
      (by simp [untagged]) ?_
    simpa [untagged, setFirst] using h
  simp [textAnalyzerBody, startsWith2, strAt, hc]
  simp [untagged]

theorem foldl_tally_comment (t : List Str) : ∀ (c : Counters),
    (t.map (fun s => (TextType.CStyleComment, s))).foldl tally c =
      { c with commLinesNum := c.commLinesNum + t.length } := by
  induction t with
  | nil => intro c; rfl
  | cons a t ih =>
    intro c
    simp only [List.map_cons, List.foldl_cons, List.length_cons]
    rw [ih]
    simp only [tally]
    congr 1
    omega

/-- With no `*/` on the current line nor on the lines `mid`, and the first `*/` of
the next line at `p`, the scan tags the lines `mid` and that next line
CStyleComment and returns on it, retagging it CodeAndComment when a character other
than a blank follows the `*/`. -/
theorem scan_until_closer (tgK : TextType) (sK : Str) (rest : Text) (p : Nat)
    (hp : closerAt sK p) (hmin : ∀ k, k < p → ¬ closerAt sK k) :
    ∀ (mid : Text) (cur : Line) (pos : Nat),
      (∀ q, ¬ closerAt cur.2 q) → (∀ l ∈ mid, ∀ q, ¬ closerAt l.2 q) →
        Halts processCStyleCommentBody (cur :: (mid ++ (tgK, sK) :: rest), 0, pos)
          (.ok (cur :: (mid.map (fun l => (TextType.CStyleComment, l.2)) ++
              (if find_first_not_of sK (p + 2) = none then TextType.CStyleComment
                else TextType.CodeAndComment, sK) :: rest),
            mid.length + 1)) := by
  intro mid
  induction mid with
  | nil =>
    intro cur pos hcur _
    obtain ⟨tg, s⟩ := cur
    refine scan_line_without_closer tg s _ _ hcur ?_ _ pos (le_refl _)
    intro pos' hf
    have h1 := scan_line_with_closer .CStyleComment sK rest p hp p 0 (by omega)
      (Nat.zero_le _) (fun k _ hk => hmin k hk)
    have h2 := processCStyleCommentBody_halts_cons (tg, s) _ _ h1
    refine Halts.next ?_ h2
    simp [processCStyleCommentBody, hf, setFirst]
  | cons nxt mid ih =>
    intro cur pos hcur hmid
    obtain ⟨tg, s⟩ := cur
    refine scan_line_without_closer tg s _ _ hcur ?_ _ pos (le_refl _)
    intro pos' hf
    have h1 := ih (TextType.CStyleComment, nxt.2) 0 (hmid nxt (List.mem_cons_self _ _))
      (fun l hl => hmid l (List.mem_cons_of_mem _ hl))
    have h2 := processCStyleCommentBody_halts_cons (tg, s) _ _ h1
    refine Halts.next ?_ h2
    obtain ⟨tn, sn⟩ := nxt
    simp [processCStyleCommentBody, hf, setFirst]

theorem find_first_not_of_after_closer (a b : Str) :
    find_first_not_of (a ++ '*' :: '/' :: b) (a.length + 2) = none ↔
      ∀ ch ∈ b, isblank ch = true := by
  unfold find_first_not_of
  rw [findIf_none]
  constructor
  · intro h ch hch
    obtain ⟨n, hn⟩ := List.getElem?_of_mem hch
    have hidx : (a ++ '*' :: '/' :: b)[a.length + 2 + n]? = some ch := by
      rw [List.getElem?_append_right (by omega)]
      have e : a.length + 2 + n - a.length = n + 2 := by omega
      rw [e]
      simpa using hn
    have := h (a.length + 2 + n) ch (by omega) hidx
    cases hv : isblank ch with
    | true => rfl
    | false =>
      have hv' : (ch == ' ' || ch == '\t') = false := hv
      simp only [hv', Bool.not_false] at this
      cases this
  · intro h k ch hk hch
    rw [List.getElem?_append_right (by omega)] at hch
    obtain ⟨m, hm⟩ : ∃ m, k - a.length = m + 2 := ⟨k - a.length - 2, by omega⟩
    rw [hm] at hch
    have hmem : ch ∈ b := List.getElem?_mem (by simpa using hch)
    have hv : (ch == ' ' || ch == '\t') = true := h ch hmem
    simp only [hv, Bool.not_true]

/-- The tag of a line on which a block comment is closed by the `*/` at `p`. -/
theorem textAnalyzer_block_closed_later (dflt : Nat) (c : Counters) (tl : Str)
    (mid : List Str) (a b : Str) (rest : List Str)
    (hno : ∀ l ∈ ('/' :: '*' :: tl) :: mid, ¬ ['*', '/'] <:+: l)
    (ha : ¬ ['*', '/'] <:+: a ++ ['*']) (tgK : TextType)
    (htg : tgK = if find_first_not_of (a ++ '*' :: '/' :: b) (a.length + 2) = none
      then TextType.CStyleComment else TextType.CodeAndComment) :
    textAnalyzer dflt c
        (untagged (('/' :: '*' :: tl) :: (mid ++ (a ++ '*' :: '/' :: b) :: rest))) =
      (textAnalyzer dflt c (untagged rest)).map
        (fun x => (tally { x.1 with commLinesNum := x.1.commLinesNum + (mid.length + 1) }
            (tgK, a ++ '*' :: '/' :: b),
          (('/' :: '*' :: tl) :: mid).map (fun s => (TextType.CStyleComment, s)) ++
            (tgK, a ++ '*' :: '/' :: b) :: x.2)) := by
  have hno' : ∀ l ∈ ('/' :: '*' :: tl) :: mid, ∀ q, ¬ closerAt l q :=
    fun l hl q hc => hno l hl (infix_of_closerAt l q hc)
  have h1 := scan_until_closer .Unknown (a ++ '*' :: '/' :: b) (untagged rest) a.length
    (closerAt_append a b) (fun k hk => not_closerAt_before a b ha k hk)
    (untagged mid) (TextType.CStyleComment, '/' :: '*' :: tl) dflt
    (hno' _ (List.mem_cons_self _ _))
    (by
      intro l hl
      simp only [untagged, List.mem_map] at hl
      obtain ⟨s, hs, rfl⟩ := hl
      exact hno' s (List.mem_cons_of_mem _ hs))
  rw [← htg] at h1
  have e1 : untagged mid ++ (TextType.Unknown, a ++ '*' :: '/' :: b) :: untagged rest =
      untagged (mid ++ (a ++ '*' :: '/' :: b) :: rest) := by
    simp [untagged]
  rw [e1] at h1
  have h2 := textAnalyzerBody_block_start dflt tl _ _ _ h1
  have key := textAnalyzer_after_done dflt c
    (untagged (('/' :: '*' :: tl) :: (mid ++ (a ++ '*' :: '/' :: b) :: rest)))
    ((('/' :: '*' :: tl) :: mid).map (fun s => (TextType.CStyleComment, s)) ++
      [(tgK, a ++ '*' :: '/' :: b)])
    (untagged rest)
    (by
      intro r hr
      refine Halts.next h2 ?_
      have e2 : (TextType.CStyleComment, '/' :: '*' :: tl) ::
          ((untagged mid).map (fun l => (TextType.CStyleComment, l.2)) ++
            (tgK, a ++ '*' :: '/' :: b) :: untagged rest) =
          ((('/' :: '*' :: tl) :: mid).map (fun s => (TextType.CStyleComment, s)) ++
            [(tgK, a ++ '*' :: '/' :: b)]) ++ untagged rest := by
        simp [untagged, List.map_map, Function.comp_def]
      rw [e2]
      have e3 : (untagged mid).length + 1 + 1 =
          ((('/' :: '*' :: tl) :: mid).map (fun s => (TextType.CStyleComment, s)) ++
            [(tgK, a ++ '*' :: '/' :: b)]).length := by
        simp [untagged]
      rw [e3]
      exact hr)
  rw [key]
  congr 1
  funext x
  simp only [List.foldl_append, List.foldl_cons, List.foldl_nil, List.append_assoc,
    List.singleton_append, List.length_cons]
  rw [foldl_tally_comment]
  simp

/-- The same when the `*/` stands on the first line itself, at or after the position
at which the scan starts. -/
theorem textAnalyzer_block_closed_first (dflt : Nat) (c : Counters) (tl a b : Str)
    (rest : List Str) (hl : a ++ '*' :: '/' :: b = '/' :: '*' :: tl)
    (ha : ¬ ['*', '/'] <:+: a ++ ['*']) (hd : dflt ≤ a.length) (tgK : TextType)
    (htg : tgK = if find_first_not_of (a ++ '*' :: '/' :: b) (a.length + 2) = none
      then TextType.CStyleComment else TextType.CodeAndComment) :
    textAnalyzer dflt c (untagged ((a ++ '*' :: '/' :: b) :: rest)) =
      (textAnalyzer dflt c (untagged rest)).map
        (fun x => (tally x.1 (tgK, a ++ '*' :: '/' :: b),
          (tgK, a ++ '*' :: '/' :: b) :: x.2)) := by
  have h1 := scan_line_with_closer .CStyleComment (a ++ '*' :: '/' :: b) (untagged rest)
    a.length (closerAt_append a b) (a.length - dflt) dflt (le_refl _) hd
    (fun k _ hk => not_closerAt_before a b ha k hk)
  rw [← htg] at h1
  refine textAnalyzer_cons_of_next dflt c _ tgK rest ?_
  rw [hl] at h1 ⊢
  exact textAnalyzerBody_block_start dflt tl rest _ _ h1

/-- A block comment that is opened on the first line and never closed. -/
theorem textAnalyzer_all_comment (dflt : Nat) (c : Counters) (tl : Str)
    (others : List Str)
    (hno : ∀ l ∈ ('/' :: '*' :: tl) :: others, ¬ ['*', '/'] <:+: l) :
    textAnalyzer dflt c (untagged (('/' :: '*' :: tl) :: others)) =
      .ok ({ c with commLinesNum := c.commLinesNum + (others.length + 1) },
        (('/' :: '*' :: tl) :: others).map (fun s => (TextType.CStyleComment, s))) := by
  have hno' : ∀ l ∈ ('/' :: '*' :: tl) :: others, ∀ p, ¬ closerAt l p :=
    fun l hl p hc => hno l hl (infix_of_closerAt l p hc)
  have h1 := scan_all_comment (untagged others) (TextType.CStyleComment, '/' :: '*' :: tl) dflt
    (hno' _ (List.mem_cons_self _ _))
    (by
      intro l hl
      simp only [untagged, List.mem_map] at hl
      obtain ⟨s, hs, rfl⟩ := hl
      exact hno' s (List.mem_cons_of_mem _ hs))
  have e : (TextType.CStyleComment, '/' :: '*' :: tl) ::
      (untagged others).map (fun l => (TextType.CStyleComment, l.2)) =
      (('/' :: '*' :: tl) :: others).map (fun s => (TextType.CStyleComment, s)) := by
    simp [untagged, List.map_map, Function.comp_def]
  rw [e] at h1
  have h2 := textAnalyzerBody_block_start dflt tl others _ _ h1
  have h3 : Halts (textAnalyzerBody dflt) (untagged (('/' :: '*' :: tl) :: others), 0)
      (.ok ((('/' :: '*' :: tl) :: others).map (fun s => (TextType.CStyleComment, s)))) := by
    refine Halts.next h2 (Halts.ret ?_)
    simp [textAnalyzerBody, untagged]
  rw [textAnalyzer_eq_of_halts dflt c _ _ h3]
  simp only [Except.map]
  rw [foldl_tally_comment]
  simp

/-- A block comment opened on the first line and closed on a later line that has no
blanks after the `*/`. -/
theorem textAnalyzer_block_closed_later_stripped (dflt : Nat) (c : Counters) (tl : Str)
    (mid : List Str) (a b : Str) (rest : List Str)
    (hno : ∀ l ∈ ('/' :: '*' :: tl) :: mid, ¬ ['*', '/'] <:+: l)
    (ha : ¬ ['*', '/'] <:+: a ++ ['*'])
    (hb : ∀ ch ∈ b, ch ≠ ' ' ∧ ch ≠ '\t') :
    textAnalyzer dflt c
        (untagged (('/' :: '*' :: tl) :: (mid ++ (a ++ '*' :: '/' :: b) :: rest))) =
      (textAnalyzer dflt c (untagged rest)).map
        (fun x => ({ x.1 with
              commLinesNum := x.1.commLinesNum + (mid.length + 1) + 1,
              codeLinesNum := x.1.codeLinesNum + (if b = [] then 0 else 1) },
          (('/' :: '*' :: tl) :: mid).map (fun s => (TextType.CStyleComment, s)) ++
            (if b = [] then TextType.CStyleComment else TextType.CodeAndComment,
              a ++ '*' :: '/' :: b) :: x.2)) := by
  have hiff := find_first_not_of_after_closer a b
  by_cases hbe : b = []
  · have hf : find_first_not_of (a ++ '*' :: '/' :: b) (a.length + 2) = none := by
      rw [hiff, hbe]; simp
    rw [textAnalyzer_block_closed_later dflt c tl mid a b rest hno ha .CStyleComment
      (by rw [hf]; rfl)]
    simp [hbe, tally]
  · have hf : ¬ find_first_not_of (a ++ '*' :: '/' :: b) (a.length + 2) = none := by
      rw [hiff]
      intro hall
      cases b with
      | nil => exact hbe rfl
      | cons ch b' =>
        have h1 := hall ch (List.mem_cons_self _ _)
        have h2 := hb ch (List.mem_cons_self _ _)
        simp [isblank] at h1
        rcases h1 with h1 | h1
        · exact h2.1 h1
        · exact h2.2 h1
    rw [textAnalyzer_block_closed_later dflt c tl mid a b rest hno ha .CodeAndComment
      (by rw [if_neg hf])]
    simp [hbe, tally]

theorem textAnalyzerBody_append (dflt : Nat) (done text : Text) (i : Nat) :
    textAnalyzerBody dflt (done ++ text, done.length + i) =
      match textAnalyzerBody dflt (text, i) with
      | .next st => .next (done ++ st.1, done.length + st.2)
      | .ret r => .ret (r.map (fun t => done ++ t)) := by
  induction done with
  | nil =>
    simp only [List.nil_append, List.length_nil, Nat.zero_add]
    cases h : textAnalyzerBody dflt (text, i) with
    | next st => rfl
    | ret r => cases r <;> rfl
  | cons l done ih =>
    have e : (l :: done).length + i = done.length + i + 1 := by simp; omega
    rw [e, List.cons_append, textAnalyzerBody_cons, ih]
    cases textAnalyzerBody dflt (text, i) with
    | next st =>
      simp only [List.cons_append, List.length_cons, Step.next.injEq, Prod.mk.injEq, true_and]
      omega
    | ret r => cases r <;> simp [Except.map]

/-- A line without `/` and without `"` is tagged BlankLine when it is empty and Code
otherwise, and the lines after it are tagged as a file of their own. -/
theorem textAnalyzer_plain_line (dflt : Nat) (c : Counters) (s : Str) (rest : List Str)
    (h1 : '/' ∉ s) (h2 : '"' ∉ s) :
    textAnalyzer dflt c (untagged (s :: rest)) =
      (textAnalyzer dflt c (untagged rest)).map
        (fun x => (tally x.1 (if s = [] then TextType.BlankLine else TextType.Code, s),
          (if s = [] then TextType.BlankLine else TextType.Code, s) :: x.2)) := by
  refine textAnalyzer_cons_of_next dflt c _ _ rest ?_
  cases s with
  | nil => simp [textAnalyzerBody, untagged, setFirst]
  | cons x s' =>
    have hx : x ≠ '/' := fun e => h1 (e ▸ List.mem_cons_self _ _)
    have hq : x ≠ '"' := fun e => h2 (e ▸ List.mem_cons_self _ _)
    have hf : find (x :: s') '/' 0 = none := by
      unfold find
      rw [findIf_none]
      intro k ch _ hch
      have hmem : ch ∈ x :: s' := List.getElem?_mem hch
      have : ch ≠ '/' := fun e => h1 (e ▸ hmem)
      simpa using this
    simp [textAnalyzerBody, untagged, startsWith2, strAt, setFirst, hx, hq, hf]

theorem stripBlanks_eq_nil (l : Str) :
    stripBlanks l = [] ↔ l.all (fun ch => ch == ' ' || ch == '\t') = true := by
  simp only [stripBlanks, isblank, List.filter_eq_nil_iff, List.all_eq_true]
  constructor
  · intro h x hx
    cases hv : (x == ' ' || x == '\t') with
    | true => rfl
    | false => exact absurd (by simp [hv]) (h x hx)
  · intro h x hx
    simp [h x hx]

/-! ## The only fault is `std::out_of_range` -/

theorem processCStyleCommentBody_ok (st : Text × Nat × Nat)
    (r : Except Fault (Text × Nat)) (h : Halts processCStyleCommentBody st r)
    (hi : st.2.1 < st.1.length) : ∃ x, r = .ok x := by
  refine Halts.inv (fun st : Text × Nat × Nat => st.2.1 < st.1.length)
    (fun r => ∃ x, r = .ok x) ?_ ?_ h hi
  · rintro ⟨text, i, pos⟩ st' h1 hb
    have h1' : i < text.length := h1
    simp only [processCStyleCommentBody] at hb
    split at hb
    · cases hb
    · split at hb
      · split at hb
        · cases hb
          show i + 1 < (setFirst text (i + 1) .CStyleComment).length
          rw [length_setFirst]; omega
        · cases hb
      · split at hb
        · cases hb
        · split at hb
          · split at hb <;> cases hb
          · cases hb; exact h1'
  · rintro ⟨text, i, pos⟩ r h1 hb
    have h1' : i < text.length := h1
    simp only [processCStyleCommentBody] at hb
    split at hb
    · rename_i hl
      rw [List.getElem?_eq_none_iff] at hl
      omega
    · rename_i tg s hl
      split at hb
      · split at hb
        · cases hb
        · cases hb; exact ⟨_, rfl⟩
      · rename_i p hp
        obtain ⟨_, h2, _, _⟩ := findIf_some _ s pos p hp
        rw [subscript_succ_of_lt s p h2] at hb
        simp only at hb
        split at hb
        · split at hb <;> (cases hb; exact ⟨_, rfl⟩)
        · cases hb

theorem processCStyleComment_ok (text : Text) (i pos : Nat) (hi : i < text.length) :
    ∃ x, processCStyleComment text i pos = .ok x := by
  cases hl : text[i]? with
  | none => rw [List.getElem?_eq_none_iff] at hl; omega
  | some l =>
    obtain ⟨tag, s⟩ := l
    refine processCStyleCommentBody_ok _ _ (processCStyleComment_halts text i pos tag s hl) ?_
    simp only
    split
    · rw [length_setFirst]; exact hi
    · exact hi

theorem processQuotesBody_ok (st : Text × Nat × Nat)
    (r : Except Fault (Text × Nat)) (h : Halts processQuotesBody st r)
    (hi : st.2.1 < st.1.length) : ∃ x, r = .ok x := by
  refine Halts.inv (fun st : Text × Nat × Nat => st.2.1 < st.1.length)
    (fun r => ∃ x, r = .ok x) ?_ ?_ h hi
  · rintro ⟨text, i, pos⟩ st' h1 hb
    have h1' : i < text.length := h1
    simp only [processQuotesBody] at hb
    split at hb
    · cases hb
    · split at hb
      · cases hb
      · split at hb
        · cases hb
        · split at hb
          · cases hb
          · split at hb
            · cases hb
            · split at hb
              · split at hb
                · cases hb
                · rename_i t' i' hc
                  cases hb
                  exact (processCStyleComment_frame _ _ _ _ _ hc).2.2
              · cases hb; exact h1'
  · rintro ⟨text, i, pos⟩ r h1 hb
    have h1' : i < text.length := h1
    simp only [processQuotesBody] at hb
    split at hb
    · rename_i hl
      rw [List.getElem?_eq_none_iff] at hl
      omega
    · rename_i tg s hl
      split at hb
      · cases hb; exact ⟨_, rfl⟩
      · split at hb
        · cases hb; exact ⟨_, rfl⟩
        · rename_i p hp
          obtain ⟨_, h2, _, _⟩ := findIf_some _ s _ p hp
          rw [subscript_succ_of_lt s p h2] at hb
          simp only at hb
          split at hb
          · cases hb; exact ⟨_, rfl⟩
          · split at hb
            · obtain ⟨x, hx⟩ := processCStyleComment_ok (setFirst text i .CodeAndComment) i p
                (by rw [length_setFirst]; exact h1')
              rw [hx] at hb
              cases hb
            · cases hb

theorem processQuotes_ok (text : Text) (i : Nat) (hi : i < text.length) :
    ∃ x, processQuotes text i = .ok x := by
  cases hl : text[i]? with
  | none => rw [List.getElem?_eq_none_iff] at hl; omega
  | some l =>
    obtain ⟨tag, s⟩ := l
    refine processQuotesBody_ok _ _ (processQuotes_halts text i tag s hl) ?_
    simp only
    split
    · rw [length_setFirst]; exact hi
    · exact hi

theorem startsWith2_error (s : Str) (a b : Char) (e : Fault)
    (h : startsWith2 s a b = .error e) : e = .outOfRange := by
  simp only [startsWith2] at h
  split at h
  · cases h; rfl
  · split at h
    · split at h
      · cases h; rfl
      · cases h
    · cases h

theorem textAnalyzerBody_ret_error (dflt : Nat) (text : Text) (i : Nat) (e : Fault)
    (h : textAnalyzerBody dflt (text, i) = .ret (.error e)) : e = .outOfRange := by
  simp only [textAnalyzerBody] at h
  split at h
  · rename_i hlt
    split at h
    · rename_i hl
      rw [List.getElem?_eq_none_iff] at hl
      omega
    · rename_i tg s hl
      split at h
      · cases h
      · split at h
        · rename_i e' he
          cases h
          exact startsWith2_error _ _ _ _ he
        · cases h
        · split at h
          · rename_i e' he
            cases h
            exact startsWith2_error _ _ _ _ he
          · obtain ⟨x, hx⟩ := processCStyleComment_ok text i dflt hlt
            rw [hx] at h
            cases h
          · split at h
            · cases h; rfl
            · split at h
              · obtain ⟨x, hx⟩ := processQuotes_ok text i hlt
                rw [hx] at h
                cases h
              · split at h
                · cases h
                · rename_i pos hp
                  obtain ⟨_, h2, _, _⟩ := findIf_some _ s 0 pos hp
                  rw [subscript_succ_of_lt s pos h2] at h
                  simp only at h
                  split at h
                  · cases h
                  · split at h
                    · obtain ⟨x, hx⟩ := processCStyleComment_ok
                        (setFirst (setFirst text i .Code) i .CodeAndComment) i pos
                        (by rw [length_setFirst, length_setFirst]; exact hlt)
                      rw [hx] at h
                      cases h
                    · cases h
  · cases h

/-- `textAnalyzer` always returns: with its vector and counters, or with the
`std::out_of_range` of `std::string::at`; the bound on the loop passes is never
reached and no unchecked subscript leaves its range. -/
theorem textAnalyzer_error (dflt : Nat) (c : Counters) (text : Text) (e : Fault)
    (h : textAnalyzer dflt c text = .error e) : e = .outOfRange := by
  have hh := textAnalyzerBody_halts dflt text
  unfold textAnalyzer at h
  cases hr : run (textAnalyzerBody dflt) (text.length + 1) (text, 0) with
  | ok t => rw [hr] at h; cases h
  | error e' =>
    rw [hr] at h hh
    cases h
    exact Halts.inv (fun _ : Text × Nat => True)
      (fun r => ∀ e, r = .error e → e = Fault.outOfRange)
      (fun _ _ _ _ => trivial)
      (fun st r _ hb e he => by
        obtain ⟨t, i⟩ := st
        subst he
        exact textAnalyzerBody_ret_error dflt t i e hb)
      hh trivial e rfl

/-! ## The summing loop -/

theorem foldl_tally_counts (t : Text) : ∀ (c : Counters),
    (t.foldl tally c).filesNum = c.filesNum ∧
      (t.foldl tally c).blankLinesNum =
        c.blankLinesNum + t.countP (fun l => l.1 = TextType.BlankLine) ∧
      (t.foldl tally c).codeLinesNum =
        c.codeLinesNum + t.countP (fun l => l.1 = TextType.Code) +
          t.countP (fun l => l.1 = TextType.CodeAndComment) ∧
      (t.foldl tally c).commLinesNum =
        c.commLinesNum + t.countP (fun l => l.1 = TextType.CStyleComment) +
          t.countP (fun l => l.1 = TextType.CppStyleComment) +
          t.countP (fun l => l.1 = TextType.CodeAndComment) := by
  induction t with
  | nil => intro c; simp
  | cons a t ih =>
    intro c
    obtain ⟨i0, i1, i2, i3⟩ := ih (tally c a)
    simp only [List.foldl_cons, List.countP_cons]
    rw [i0, i1, i2, i3]
    obtain ⟨tg, sa⟩ := a
    cases tg <;> simp [tally] <;> omega

/-- The position of the first `/` of a line `x :: a ++ '/' :: b` without `/` in
`x :: a`. -/
theorem find_first_slash (x : Char) (a b : Str) (hx : x ≠ '/') (ha : '/' ∉ a) :
    find (x :: (a ++ '/' :: b)) '/' 0 = some (a.length + 1) := by
  refine findIf_eq_some _ _ 0 _ '/' (Nat.zero_le _)
    (by simpa using getElem?_append_at a b '/') (by simp) ?_
  intro k ch _ hk hch
  cases k with
  | zero => simp at hch; subst hch; simpa using hx
  | succ k =>
    have hmem : ch ∈ a :=
      mem_of_getElem?_append a _ k ch (by omega) (by simpa using hch)
    have : ch ≠ '/' := fun e => ha (e ▸ hmem)
    simpa using this

/-! ## Every pass makes progress -/

theorem processCStyleCommentBody_progress (st st' : Text × Nat × Nat)
    (h : processCStyleCommentBody st = .next st') :
    st'.2.1 = st.2.1 + 1 ∨ (st'.2.1 = st.2.1 ∧ st.2.2 < st'.2.2) := by
  obtain ⟨text, i, pos⟩ := st
  simp only [processCStyleCommentBody] at h
  split at h
  · cases h
  · rename_i tg s hl
    split at h
    · split at h
      · cases h; exact Or.inl rfl
      · cases h
    · rename_i p hp
      obtain ⟨h1, _, _, _⟩ := findIf_some _ s pos p hp
      split at h
      · cases h
      · split at h
        · split at h <;> cases h
        · cases h
          exact Or.inr ⟨rfl, Nat.lt_succ_of_le h1⟩

theorem processQuotesBody_progress (st st' : Text × Nat × Nat)
    (h : processQuotesBody st = .next st') :
    st.2.1 < st'.2.1 ∨ (st'.2.1 = st.2.1 ∧ st.2.2 < st'.2.2) := by
  obtain ⟨text, i, pos⟩ := st
  simp only [processQuotesBody] at h
  split at h
  · cases h
  · rename_i tg s hl
    split at h
    · cases h
    · rename_i q hq
      split at h
      · cases h
      · rename_i p hp
        obtain ⟨hq1, _, _, _⟩ := findIf_some _ s pos q hq
        obtain ⟨hp1, _, _, _⟩ := findIf_some _ s (q + 1) p hp
        have hlt : pos < p := by omega
        split at h
        · cases h
        · split at h
          · cases h
          · split at h
            · split at h
              · cases h
              · rename_i t' i' hc
                cases h
                obtain ⟨_, f2, _⟩ := processCStyleComment_frame _ _ _ _ _ hc
                rcases Nat.eq_or_lt_of_le f2 with he | hl'
                · exact Or.inr ⟨he.symm, hlt⟩
                · exact Or.inl hl'
            · cases h
              exact Or.inr ⟨rfl, hlt⟩

theorem processCStyleComment_ne_fuel (text : Text) (i pos : Nat) :
    processCStyleComment text i pos ≠ .error .fuel := by
  cases hl : text[i]? with
  | none => simp [processCStyleComment, hl]
  | some l =>
    obtain ⟨tag, s⟩ := l
    refine Halts.inv (fun _ : Text × Nat × Nat => True)
      (fun r => r ≠ Except.error Fault.fuel) (fun _ _ _ _ => trivial) ?_
      (processCStyleComment_halts text i pos tag s hl) trivial
    rintro ⟨t, j, q⟩ r _ hb
    simp only [processCStyleCommentBody] at hb
    split at hb
    · cases hb; simp
    · split at hb
      · split at hb
        · cases hb
        · cases hb; simp
      · split at hb
        · cases hb; simp
        · split at hb
          · split at hb <;> (cases hb; simp)
          · cases hb

theorem processQuotes_ne_fuel (text : Text) (i : Nat) :
    processQuotes text i ≠ .error .fuel := by
  cases hl : text[i]? with
  | none => simp [processQuotes, hl]
  | some l =>
    obtain ⟨tag, s⟩ := l
    refine Halts.inv (fun _ : Text × Nat × Nat => True)
      (fun r => r ≠ Except.error Fault.fuel) (fun _ _ _ _ => trivial) ?_
      (processQuotes_halts text i tag s hl) trivial
    rintro ⟨t, j, q⟩ r _ hb
    simp only [processQuotesBody] at hb
    split at hb
    · cases hb; simp
    · split at hb
      · cases hb; simp
      · split at hb
        · cases hb; simp
        · split at hb
          · cases hb; simp
          · split at hb
            · cases hb; simp
            · split at hb
              · split at hb
                · rename_i e he
                  cases hb
                  intro hfuel
                  cases hfuel
                  exact processCStyleComment_ne_fuel _ _ _ he
                · cases hb
              · cases hb

/-! ## The arithmetic of `allocateWork` -/

theorem toSize_minPerThread : toSize minPerThread = 2 := by decide

theorem toSize_one : toSize 1 = 1 := by decide

theorem maxThreads_eq (n : Nat) (hn : n + 1 < 2 ^ 32) :
    maxThreads n = (((n + 1) / 2 : Nat) : Int) := by
  unfold maxThreads toInt
  rw [toSize_minPerThread, toSize_one]
  have e : ((n + 2) % 2 ^ 64 + (2 ^ 64 - 1)) % 2 ^ 64 / 2 = (n + 1) / 2 := by omega
  rw [e]
  have e2 : (n + 1) / 2 % 2 ^ 32 = (n + 1) / 2 := by omega
  rw [e2, if_pos (by omega)]

theorem supportedThreads_eq (h : Nat) (hh : h < 2 ^ 31) :
    supportedThreads h = (h : Int) := by
  unfold supportedThreads toInt
  have e2 : h % 2 ^ 32 = h := by omega
  rw [e2, if_pos (by omega)]

theorem ceil_half (n : Nat) : ⌈(n : ℚ) / 2⌉₊ = (n + 1) / 2 := by
  rcases Nat.even_or_odd' n with ⟨k, rfl | rfl⟩
  · have : (((2 * k : Nat) : ℚ)) / 2 = (k : ℚ) := by push_cast; ring
    rw [this, Nat.ceil_natCast]; omega
  · have e : (2 * k + 1 + 1) / 2 = k + 1 := by omega
    rw [e, Nat.ceil_eq_iff (by omega)]
    have e3 : k + 1 - 1 = k := by omega
    rw [e3]
    constructor
    · push_cast; linarith
    · push_cast; linarith

theorem numOfThreads_eq (n h : Nat) (hn : n + 1 < 2 ^ 32) (hh : h < 2 ^ 31) :
    numOfThreads n h = min (if h = 0 then 4 else (h : Int)) (((n + 1) / 2 : Nat) : Int) := by
  unfold numOfThreads
  rw [maxThreads_eq n hn, supportedThreads_eq h hh]
  by_cases h0 : h = 0
  · simp [h0]
  · have : ¬ ((h : Int) = 0) := by omega
    simp [h0, this]

/-! ## Tasks executed one after another -/

theorem addCounters_zero (c : Counters) : addCounters c ⟨0, 0, 0, 0⟩ = c := by
  cases c; rfl

theorem addCounters_right_comm (z x y : Counters) :
    addCounters (addCounters z x) y = addCounters (addCounters z y) x := by
  simp only [addCounters, Counters.mk.injEq]
  refine ⟨?_, ?_, ?_, ?_⟩ <;> omega

theorem foldl_tally_add (t : Text) (c : Counters) :
    t.foldl tally c = addCounters c (t.foldl tally ⟨0, 0, 0, 0⟩) := by
  obtain ⟨a0, a1, a2, a3⟩ := foldl_tally_counts t c
  obtain ⟨b0, b1, b2, b3⟩ := foldl_tally_counts t ⟨0, 0, 0, 0⟩
  cases hc : t.foldl tally c
  cases hz : t.foldl tally ⟨0, 0, 0, 0⟩
  rw [hc] at a0 a1 a2 a3
  rw [hz] at b0 b1 b2 b3
  simp only at a0 a1 a2 a3 b0 b1 b2 b3
  simp only [addCounters, Counters.mk.injEq]
  refine ⟨?_, ?_, ?_, ?_⟩ <;> omega

/-- The counters `textAnalyzer` starts from are only added to. -/
theorem textAnalyzer_counters (dflt : Nat) (c : Counters) (text : Text) :
    textAnalyzer dflt c text =
      (textAnalyzer dflt ⟨0, 0, 0, 0⟩ text).map (fun x => (addCounters c x.1, x.2)) := by
  unfold textAnalyzer
  cases run (textAnalyzerBody dflt) (text.length + 1) (text, 0) with
  | error e => rfl
  | ok t =>
    simp only [Except.map]
    rw [foldl_tally_add t c]

theorem processFile_cons {Path : Type} (dflt : Nat) (fs : Path → Option (List Str))
    (p : Path) (rest : List Path) (c : Counters) :
    (processFile dflt fs { files := p :: rest, counters := c }).1 =
      { files := rest, counters := addCounters c (contribution dflt fs p) } := by
  simp only [processFile, contribution]
  cases hf : fs p with
  | none => simp only [addCounters_zero]
  | some raw =>
    simp only
    rw [textAnalyzer_counters dflt { c with filesNum := c.filesNum + 1 },
      textAnalyzer_counters dflt
        { (⟨0, 0, 0, 0⟩ : Counters) with filesNum := (⟨0, 0, 0, 0⟩ : Counters).filesNum + 1 }]
    cases textAnalyzer dflt ⟨0, 0, 0, 0⟩ (loadText raw) with
    | error e =>
      simp only [Except.map, addCounters, Analyzer.mk.injEq, Counters.mk.injEq, true_and]
      omega
    | ok x =>
      simp only [Except.map, addCounters, Analyzer.mk.injEq, Counters.mk.injEq, true_and]
      omega

theorem processFile_nil {Path : Type} (dflt : Nat) (fs : Path → Option (List Str))
    (c : Counters) :
    processFile dflt fs { files := ([] : List Path), counters := c } =
      ({ files := [], counters := c }, none) := by
  rfl

theorem runTasks_succ {Path : Type} (dflt : Nat) (fs : Path → Option (List Str)) :
    ∀ (k : Nat) (a : Analyzer Path),
      runTasks dflt fs (k + 1) a = (processFile dflt fs (runTasks dflt fs k a)).1 := by
  intro k
  induction k with
  | zero => intro a; rfl
  | succ k ih =>
    intro a
    show runTasks dflt fs (k + 1) (processFile dflt fs a).1 =
      (processFile dflt fs (runTasks dflt fs k (processFile dflt fs a).1)).1
    exact ih _

/-- The object after `k` tasks: the first `k` paths are gone from the queue and
their contributions are added to the counters. -/
theorem runTasks_eq {Path : Type} (dflt : Nat) (fs : Path → Option (List Str)) :
    ∀ (k : Nat) (q : List Path) (c : Counters),
      runTasks dflt fs k { files := q, counters := c } =
        { files := q.drop k,
          counters := (q.take k).foldl
            (fun acc p => addCounters acc (contribution dflt fs p)) c } := by
  intro k
  induction k with
  | zero => intro q c; simp [runTasks]
  | succ k ih =>
    intro q c
    cases q with
    | nil =>
      simp only [runTasks, processFile_nil]
      rw [ih]
      simp
    | cons p rest =>
      simp only [runTasks, processFile_cons]
      rw [ih]
      simp

/-! ## The loop that hands the tasks to the pool -/

theorem runTasks_files_length_le {Path : Type} (dflt : Nat)
    (fs : Path → Option (List Str)) :
    ∀ (k : Nat) (a : Analyzer Path), (runTasks dflt fs k a).files.length ≤ a.files.length := by
  intro k
  induction k with
  | zero => intro a; exact le_refl _
  | succ k ih =>
    intro a
    refine le_trans (ih (processFile dflt fs a).1) ?_
    obtain ⟨q, c⟩ := a
    cases q with
    | nil => rw [processFile_nil]
    | cons p rest => rw [processFile_cons]; simp

theorem scheduleBody_ok {Path : Type} (dflt : Nat) (fs : Path → Option (List Str))
    (pool : Nat → Nat) :
    ∀ (n : Nat) (s : Scheduling Path) (r : Except Fault (Scheduling Path)),
      iterate (scheduleBody dflt fs pool) n s = some r → ∃ s', r = .ok s' := by
  intro n
  induction n with
  | zero => intro s r h; simp [iterate] at h
  | succ n ih =>
    intro s r h
    unfold iterate at h
    by_cases hlt : s.i < s.object.files.length
    · simp only [scheduleBody, if_pos hlt] at h
      exact ih _ r h
    · simp only [scheduleBody, if_neg hlt, Option.some.injEq] at h
      exact ⟨s, h.symm⟩

/-- The loop of `allocateWork` returns within the bound on passes it is given, for
every pool. -/
theorem allocateWork_returns {Path : Type} (dflt : Nat) (fs : Path → Option (List Str))
    (pool : Nat → Nat) (h : Nat) (a : Analyzer Path) :
    ∃ r, allocateWork dflt fs pool h a = .ok r := by
  unfold allocateWork
  by_cases h0 : a.files.length = 0
  · exact ⟨none, by rw [if_pos h0]⟩
  · rw [if_neg h0]
    have hdec : ∀ s s' : Scheduling Path, scheduleBody dflt fs pool s = .next s' →
        s'.object.files.length - s'.i < s.object.files.length - s.i := by
      intro s s' hb
      by_cases hlt : s.i < s.object.files.length
      · simp only [scheduleBody, if_pos hlt, Step.next.injEq] at hb
        subst hb
        have := runTasks_files_length_le dflt fs (min (pool s.i) (s.waiting + 1)) s.object
        show (runTasks dflt fs (min (pool s.i) (s.waiting + 1)) s.object).files.length -
          (s.i + 1) < s.object.files.length - s.i
        omega
      · simp only [scheduleBody, if_neg hlt] at hb
        cases hb
    have hsome := iterate_isSome_of_measure
      (fun s : Scheduling Path => s.object.files.length - s.i) hdec
      (a.files.length + 1) { i := 0, object := a, waiting := 0, tasks := 0 }
      (by show a.files.length - 0 < a.files.length + 1; omega)
    obtain ⟨r, hr⟩ := Option.isSome_iff_exists.1 hsome
    obtain ⟨s', rfl⟩ := scheduleBody_ok dflt fs pool _ _ r hr
    unfold run
    rw [hr]
    exact ⟨_, rfl⟩

theorem iterate_scheduleBody_idle {Path : Type} (dflt : Nat)
    (fs : Path → Option (List Str)) (a : Analyzer Path) :
    ∀ (k i : Nat), i + k = a.files.length →
      iterate (scheduleBody dflt fs (fun _ => 0)) (k + 1)
          { i := i, object := a, waiting := i, tasks := i } =
        some (.ok { i := a.files.length, object := a, waiting := a.files.length,
                    tasks := a.files.length }) := by
  intro k
  induction k with
  | zero =>
    intro i hi
    have e : i = a.files.length := by omega
    subst e
    simp [iterate, scheduleBody]
  | succ k ih =>
    intro i hi
    have hlt : i < a.files.length := by omega
    have hb : scheduleBody dflt fs (fun _ => 0)
        { i := i, object := a, waiting := i, tasks := i } =
        .next { i := i + 1, object := a, waiting := i + 1, tasks := i + 1 } := by
      simp [scheduleBody, hlt, runTasks]
    rw [iterate, hb]
    exact ih (i + 1) (by omega)

/-- When the workers run no task while the loop runs, `allocateWork` hands one task
to the pool for each path of the queue. -/
theorem allocateWork_idle_pool {Path : Type} (dflt : Nat)
    (fs : Path → Option (List Str)) (h : Nat) (a : Analyzer Path)
    (ha : a.files.length ≠ 0) :
    allocateWork dflt fs (fun _ => 0) h a =
      .ok (some { numOfThreads := numOfThreads a.files.length h
                  step := step a.files.length h
                  tasks := a.files.length
                  waiting := a.files.length
                  object := a }) := by
  unfold allocateWork
  rw [if_neg ha]
  unfold run
  rw [iterate_scheduleBody_idle dflt fs a a.files.length 0 (by omega)]
  rfl

/-! ## A block comment opened at the start of a line or after code -/

theorem closerAt_of_infix (s : Str) (h : ['*', '/'] <:+: s) : ∃ p, closerAt s p := by
  obtain ⟨l1, l2, rfl⟩ := h
  refine ⟨l1.length, ?_⟩
  have e : l1 ++ ['*', '/'] ++ l2 = l1 ++ '*' :: '/' :: l2 := by simp
  rw [e]
  exact closerAt_append l1 l2

theorem closerAt_append_left (pre s : Str) (k : Nat) :
    closerAt (pre ++ s) (pre.length + k) ↔ closerAt s k := by
  unfold closerAt
  rw [List.getElem?_append_right (by omega), List.getElem?_append_right (by omega)]
  have e1 : pre.length + k - pre.length = k := by omega
  have e2 : pre.length + k + 1 - pre.length = k + 1 := by omega
  rw [e1, e2]

theorem closerAt_cons (x : Char) (s : Str) (k : Nat) :
    closerAt (x :: s) (k + 1) ↔ closerAt s k := by
  unfold closerAt
  simp

/-- On a line `code ++ "/*" ++ a ++ "*/" ++ b` in which `a` does not begin with `/`
and `a ++ "*"` holds no `*/`, no `*/` stands between the opener and the `*/` after
`a`. -/
theorem not_closerAt_in_comment (code a b : Str) (hs : a.head? ≠ some '/')
    (ha : ¬ ['*', '/'] <:+: a ++ ['*']) (k : Nat) (hk1 : code.length ≤ k)
    (hk2 : k < code.length + 2 + a.length) :
    ¬ closerAt (code ++ '/' :: '*' :: (a ++ '*' :: '/' :: b)) k := by
  obtain ⟨j, rfl⟩ : ∃ j, k = code.length + j := ⟨k - code.length, by omega⟩
  rw [closerAt_append_left]
  cases j with
  | zero =>
    intro h
    have := h.1
    simp at this
  | succ j =>
    rw [closerAt_cons]
    cases j with
    | zero =>
      intro h
      have h2 := h.2
      cases a with
      | nil => simp at h2
      | cons y a' =>
        simp at h2
        exact hs (by simp [h2])
    | succ j =>
      rw [closerAt_cons]
      exact not_closerAt_before a b ha j (by omega)

/-- On a line `code ++ "/*" ++ t` in which `"/*" ++ t` holds no `*/`, no `*/` stands
at or after the opener. -/
theorem not_closerAt_from_opener (code t : Str) (ht : ¬ ['*', '/'] <:+: '/' :: '*' :: t)
    (k : Nat) (hk : code.length ≤ k) : ¬ closerAt (code ++ '/' :: '*' :: t) k := by
  obtain ⟨j, rfl⟩ : ∃ j, k = code.length + j := ⟨k - code.length, by omega⟩
  rw [closerAt_append_left]
  exact fun h => ht (infix_of_closerAt _ j h)

/-- From a position `pos ≥ pos0` of a first line without `*/` at or after `pos0`, the
scan reaches a pass in which no `*` is found. -/
theorem scan_line_without_closer_from (tg : TextType) (s : Str) (rest : Text)
    (r : Except Fault (Text × Nat)) (pos0 : Nat) (hno : ∀ p, pos0 ≤ p → ¬ closerAt s p)
    (hend : ∀ pos, find s '*' pos = none →
      Halts processCStyleCommentBody ((tg, s) :: rest, 0, pos) r) :
    ∀ (n pos : Nat), pos0 ≤ pos → s.length - pos ≤ n →
      Halts processCStyleCommentBody ((tg, s) :: rest, 0, pos) r := by
  intro n
  induction n with
  | zero =>
    intro pos _ hn
    apply hend
    cases hf : find s '*' pos with
    | none => rfl
    | some p =>
      obtain ⟨h1, h2, _, _⟩ := findIf_some _ s pos p hf
      omega
  | succ n ih =>
    intro pos hpos hn
    cases hf : find s '*' pos with
    | none => exact hend pos hf
    | some p =>
      obtain ⟨h1, h2, ⟨ch, hch, hstar⟩, _⟩ := findIf_some _ s pos p hf
      have hstar' : ch = '*' := by simpa using hstar
      subst hstar'
      have hne : ¬ (s[p + 1]?.getD (Char.ofNat 0) = '/') := by
        rw [getD_eq_slash]
        exact fun h => hno p (by omega) ⟨hch, h⟩
      refine Halts.next ?_ (ih (p + 1) (by omega) (by omega))
      simp [processCStyleCommentBody, hf, subscript_succ_of_lt s p h2, hne]

/-- As `scan_until_closer`, for a scan that starts at `pos` on a current line with no
`*/` at or after `pos`. -/
theorem scan_until_closer_from (tgK : TextType) (sK : Str) (rest : Text) (p : Nat)
    (hp : closerAt sK p) (hmin : ∀ k, k < p → ¬ closerAt sK k) (mid : Text) (cur : Line)
    (pos : Nat) (hcur : ∀ q, pos ≤ q → ¬ closerAt cur.2 q)
    (hmid : ∀ l ∈ mid, ∀ q, ¬ closerAt l.2 q) :
    Halts processCStyleCommentBody (cur :: (mid ++ (tgK, sK) :: rest), 0, pos)
      (.ok (cur :: (mid.map (fun l => (TextType.CStyleComment, l.2)) ++
          (if find_first_not_of sK (p + 2) = none then TextType.CStyleComment
            else TextType.CodeAndComment, sK) :: rest),
        mid.length + 1)) := by
  obtain ⟨tg, s⟩ := cur
  refine scan_line_without_closer_from tg s _ _ pos hcur ?_ _ pos (le_refl _) (le_refl _)
  intro pos' hf
  cases mid with
  | nil =>
    have h1 := scan_line_with_closer .CStyleComment sK rest p hp p 0 (by omega)
      (Nat.zero_le _) (fun k _ hk => hmin k hk)
    have h2 := processCStyleCommentBody_halts_cons (tg, s) _ _ h1
    refine Halts.next ?_ h2
    simp [processCStyleCommentBody, hf, setFirst]
  | cons nxt mid =>
    have h1 := scan_until_closer tgK sK rest p hp hmin mid (TextType.CStyleComment, nxt.2) 0
      (hmid nxt (List.mem_cons_self _ _))
      (fun l hl => hmid l (List.mem_cons_of_mem _ hl))
    have h2 := processCStyleCommentBody_halts_cons (tg, s) _ _ h1
    refine Halts.next ?_ h2
    obtain ⟨tn, sn⟩ := nxt
    simp [processCStyleCommentBody, hf, setFirst]

/-- The pass of the `for` loop on a first line that does not begin with `/` or `"`
and whose first `/` is followed by `*`. -/
theorem textAnalyzerBody_code_block_start (dflt : Nat) (x : Char) (cd tl : Str)
    (others : List Str) (t' : Text) (i' : Nat) (hx : x ≠ '/') (hq : x ≠ '"')
    (hcd : '/' ∉ cd)
    (h : Halts processCStyleCommentBody
      ((TextType.CodeAndComment, x :: (cd ++ '/' :: '*' :: tl)) :: untagged others, 0,
        cd.length + 1)
      (.ok (t', i'))) :
    textAnalyzerBody dflt (untagged ((x :: (cd ++ '/' :: '*' :: tl)) :: others), 0) =
      .next (t', i' + 1) := by
  have hf := find_first_slash x cd ('*' :: tl) hx hcd
  have hle : cd.length + 1 + 1 ≤ (x :: (cd ++ '/' :: '*' :: tl)).length := by simp
  have hs : subscript (x :: (cd ++ '/' :: '*' :: tl)) (cd.length + 1 + 1) = some '*' := by
    rw [subscript, if_pos hle, List.getElem?_cons_succ, getElem?_append_at_succ cd tl '/' '*']
    rfl
  have hc : processCStyleComment
      ((TextType.CodeAndComment, x :: (cd ++ '/' :: '*' :: tl)) :: untagged others) 0
      (cd.length + 1) = .ok (t', i') := by
    refine processCStyleComment_eq_of_halts _ 0 _ .CodeAndComment
      (x :: (cd ++ '/' :: '*' :: tl)) _ (by simp) ?_
    simpa using h
  have h1 : ¬ ('*' = '/') := by decide
  simp [textAnalyzerBody, untagged, startsWith2, strAt, setFirst, hx, hq, hf, hs, h1]
  simp [untagged] at hc
  simp [hc]

/-- A block comment opened at the start of the first line and closed on that line by
the first `*/` after its opener. -/
theorem textAnalyzer_block_closed_same (dflt : Nat) (c : Counters) (a b : Str)
    (rest : List Str) (hs : a.head? ≠ some '/') (ha : ¬ ['*', '/'] <:+: a ++ ['*'])
    (hd : dflt ≤ a.length + 2) (tgK : TextType)
    (htg : tgK = if find_first_not_of ('/' :: '*' :: (a ++ '*' :: '/' :: b))
        (a.length + 2 + 2) = none
      then TextType.CStyleComment else TextType.CodeAndComment) :
    textAnalyzer dflt c (untagged (('/' :: '*' :: (a ++ '*' :: '/' :: b)) :: rest)) =
      (textAnalyzer dflt c (untagged rest)).map
        (fun y => (tally y.1 (tgK, '/' :: '*' :: (a ++ '*' :: '/' :: b)),
          (tgK, '/' :: '*' :: (a ++ '*' :: '/' :: b)) :: y.2)) := by
  have hp : closerAt ('/' :: '*' :: (a ++ '*' :: '/' :: b)) (a.length + 2) := by
    have := closerAt_append ('/' :: '*' :: a) b
    simpa using this
  have h1 := scan_line_with_closer .CStyleComment ('/' :: '*' :: (a ++ '*' :: '/' :: b))
    (untagged rest) (a.length + 2) hp (a.length + 2 - dflt) dflt (le_refl _) hd
    (fun k _ hk => not_closerAt_in_comment [] a b hs ha k (Nat.zero_le _)
      (by simpa [Nat.add_comm] using hk))
  rw [← htg] at h1
  refine textAnalyzer_cons_of_next dflt c _ tgK rest ?_
  exact textAnalyzerBody_block_start dflt _ rest _ _ h1

/-- A block comment opened after code on the first line and closed on that line by
the first `*/` after its opener. -/
theorem textAnalyzer_code_block_closed_same (dflt : Nat) (c : Counters) (x : Char)
    (cd a b : Str) (rest : List Str) (hx : x ≠ '/') (hq : x ≠ '"') (hcd : '/' ∉ cd)
    (hs : a.head? ≠ some '/') (ha : ¬ ['*', '/'] <:+: a ++ ['*']) :
    textAnalyzer dflt c
        (untagged ((x :: (cd ++ '/' :: '*' :: (a ++ '*' :: '/' :: b))) :: rest)) =
      (textAnalyzer dflt c (untagged rest)).map
        (fun y => (tally y.1
            (TextType.CodeAndComment, x :: (cd ++ '/' :: '*' :: (a ++ '*' :: '/' :: b))),
          (TextType.CodeAndComment, x :: (cd ++ '/' :: '*' :: (a ++ '*' :: '/' :: b))) ::
            y.2)) := by
  refine textAnalyzer_cons_of_next dflt c _ .CodeAndComment rest ?_
  have e : x :: (cd ++ '/' :: '*' :: (a ++ '*' :: '/' :: b)) =
      (x :: (cd ++ '/' :: '*' :: a)) ++ '*' :: '/' :: b := by simp
  have hp : closerAt (x :: (cd ++ '/' :: '*' :: (a ++ '*' :: '/' :: b)))
      (cd.length + 1 + 2 + a.length) := by
    rw [e]
    have := closerAt_append (x :: (cd ++ '/' :: '*' :: a)) b
    have hl : (x :: (cd ++ '/' :: '*' :: a)).length = cd.length + 1 + 2 + a.length := by
      simp; omega
    rw [hl] at this
    exact this
  have hmin : ∀ k, cd.length + 1 ≤ k → k < cd.length + 1 + 2 + a.length →
      ¬ closerAt (x :: (cd ++ '/' :: '*' :: (a ++ '*' :: '/' :: b))) k := by
    intro k hk1 hk2
    exact not_closerAt_in_comment (x :: cd) a b hs ha k (by simpa using hk1)
      (by simpa using hk2)
  have h1 := scan_line_with_closer .CodeAndComment
    (x :: (cd ++ '/' :: '*' :: (a ++ '*' :: '/' :: b))) (untagged rest)
    (cd.length + 1 + 2 + a.length) hp (cd.length + 1 + 2 + a.length - (cd.length + 1))
    (cd.length + 1) (le_refl _) (by omega) hmin
  rw [ite_self] at h1
  exact textAnalyzerBody_code_block_start dflt x cd _ rest _ _ hx hq hcd h1

/-- A block comment opened after code on the first line and closed on a later line. -/
theorem textAnalyzer_code_block_closed_later (dflt : Nat) (c : Counters) (x : Char)
    (cd t : Str) (mid : List Str) (a b : Str) (rest : List Str) (hx : x ≠ '/')
    (hq : x ≠ '"') (hcd : '/' ∉ cd) (ht : ¬ ['*', '/'] <:+: '/' :: '*' :: t)
    (hmid : ∀ l ∈ mid, ¬ ['*', '/'] <:+: l) (ha : ¬ ['*', '/'] <:+: a ++ ['*'])
    (tgK : TextType)
    (htg : tgK = if find_first_not_of (a ++ '*' :: '/' :: b) (a.length + 2) = none
      then TextType.CStyleComment else TextType.CodeAndComment) :
    textAnalyzer dflt c
        (untagged ((x :: (cd ++ '/' :: '*' :: t)) :: (mid ++ (a ++ '*' :: '/' :: b) :: rest))) =
      (textAnalyzer dflt c (untagged rest)).map
        (fun y => (tally
            { (tally y.1 (TextType.CodeAndComment, x :: (cd ++ '/' :: '*' :: t))) with
              commLinesNum :=
                (tally y.1 (TextType.CodeAndComment,
                  x :: (cd ++ '/' :: '*' :: t))).commLinesNum + mid.length }
            (tgK, a ++ '*' :: '/' :: b),
          (TextType.CodeAndComment, x :: (cd ++ '/' :: '*' :: t)) ::
            (mid.map (fun s => (TextType.CStyleComment, s)) ++
              (tgK, a ++ '*' :: '/' :: b) :: y.2))) := by
  have hcur : ∀ q, cd.length + 1 ≤ q → ¬ closerAt (x :: (cd ++ '/' :: '*' :: t)) q := by
    intro q hq'
    exact not_closerAt_from_opener (x :: cd) t ht q (by simpa using hq')
  have h1 := scan_until_closer_from .Unknown (a ++ '*' :: '/' :: b) (untagged rest) a.length
    (closerAt_append a b) (fun k hk => not_closerAt_before a b ha k hk)
    (untagged mid) (TextType.CodeAndComment, x :: (cd ++ '/' :: '*' :: t)) (cd.length + 1)
    hcur
    (by
      intro l hl
      simp only [untagged, List.mem_map] at hl
      obtain ⟨s, hs, rfl⟩ := hl
      exact fun q hc => hmid s hs (infix_of_closerAt s q hc))
  rw [← htg] at h1
  have e1 : untagged mid ++ (TextType.Unknown, a ++ '*' :: '/' :: b) :: untagged rest =
      untagged (mid ++ (a ++ '*' :: '/' :: b) :: rest) := by
    simp [untagged]
  rw [e1] at h1
  have h2 := textAnalyzerBody_code_block_start dflt x cd t _ _ _ hx hq hcd h1
  have key := textAnalyzer_after_done dflt c
    (untagged ((x :: (cd ++ '/' :: '*' :: t)) :: (mid ++ (a ++ '*' :: '/' :: b) :: rest)))
    ((TextType.CodeAndComment, x :: (cd ++ '/' :: '*' :: t)) ::
      (mid.map (fun s => (TextType.CStyleComment, s)) ++ [(tgK, a ++ '*' :: '/' :: b)]))
    (untagged rest)
    (by
      intro r hr
      refine Halts.next h2 ?_
      have e2 : (TextType.CodeAndComment, x :: (cd ++ '/' :: '*' :: t)) ::
          ((untagged mid).map (fun l => (TextType.CStyleComment, l.2)) ++
            (tgK, a ++ '*' :: '/' :: b) :: untagged rest) =
          ((TextType.CodeAndComment, x :: (cd ++ '/' :: '*' :: t)) ::
            (mid.map (fun s => (TextType.CStyleComment, s)) ++
              [(tgK, a ++ '*' :: '/' :: b)])) ++ untagged rest := by
        simp [untagged, List.map_map, Function.comp_def]
      rw [e2]
      have e3 : (untagged mid).length + 1 + 1 =
          ((TextType.CodeAndComment, x :: (cd ++ '/' :: '*' :: t)) ::
            (mid.map (fun s => (TextType.CStyleComment, s)) ++
              [(tgK, a ++ '*' :: '/' :: b)])).length := by
        simp [untagged]
      rw [e3]
      exact hr)
  rw [key]
  congr 1
  funext y
  simp only [List.foldl_append, List.foldl_cons, List.foldl_nil, List.cons_append,
    List.append_assoc, List.singleton_append, List.nil_append]
  rw [foldl_tally_comment]

/-! ## The claims -/

/-- C1: when `textAnalyzer` completes on a file, the lines it leaves are the lines it
was given, none of them is tagged `Unknown`, no counter has decreased, and the three
increments add up to the number of lines plus the number of lines tagged
CodeAndComment (which are counted twice): blank + code + comment less the
CodeAndComment lines is the number of lines. -/
theorem textAnalyzer_classifies_every_line (dflt : Nat) (c c' : Counters)
    (lines : List Str) (text' : Text)
    (h : textAnalyzer dflt c (untagged lines) = .ok (c', text')) :
    strings text' = lines ∧ (∀ l ∈ text', l.1 ≠ TextType.Unknown) ∧
      c.blankLinesNum ≤ c'.blankLinesNum ∧ c.codeLinesNum ≤ c'.codeLinesNum ∧
      c.commLinesNum ≤ c'.commLinesNum ∧
      (c'.blankLinesNum - c.blankLinesNum) + (c'.codeLinesNum - c.codeLinesNum) +
          (c'.commLinesNum - c.commLinesNum) -
          text'.countP (fun l => l.1 = TextType.CodeAndComment) = lines.length := by
  have hh := textAnalyzerBody_halts dflt (untagged lines)
  unfold textAnalyzer at h
  cases hr : run (textAnalyzerBody dflt) ((untagged lines).length + 1) (untagged lines, 0) with
  | error e => rw [hr] at h; cases h
  | ok t =>
    rw [hr] at h hh
    simp only [Except.map, Except.ok.injEq, Prod.mk.injEq] at h
    obtain ⟨hc, ht⟩ := h
    subst ht
    obtain ⟨r1, r2⟩ := textAnalyzerBody_result dflt _ _ hh
    obtain ⟨i1, i2, i3, i4⟩ := foldl_tally_sum t c r2
    rw [hc] at i1 i2 i3 i4
    have hlen : t.length = lines.length := by
      have := length_eq_of_strings r1
      simpa [untagged] using this
    refine ⟨?_, r2, i1, i2, i3, ?_⟩
    · rw [r1]; simp [strings, untagged, List.map_map, Function.comp_def]
    · omega

/-- C1, on the file `a/*b`, `c*/d`, `//e`. -/
theorem textAnalyzer_classifies_every_line_witness :
    textAnalyzer 0 ⟨0, 0, 0, 0⟩ (untagged ["a/*b".toList, "c*/d".toList, "//e".toList]) =
        .ok (⟨0, 0, 2, 3⟩,
          [(TextType.CodeAndComment, "a/*b".toList), (TextType.CodeAndComment, "c*/d".toList),
            (TextType.CppStyleComment, "//e".toList)]) ∧
    (strings [(TextType.CodeAndComment, "a/*b".toList), (TextType.CodeAndComment, "c*/d".toList),
        (TextType.CppStyleComment, "//e".toList)] =
      ["a/*b".toList, "c*/d".toList, "//e".toList] ∧
    (∀ l ∈ [(TextType.CodeAndComment, "a/*b".toList), (TextType.CodeAndComment, "c*/d".toList),
        (TextType.CppStyleComment, "//e".toList)], l.1 ≠ TextType.Unknown) ∧
    0 ≤ 0 ∧ 0 ≤ 2 ∧ 0 ≤ 3 ∧
    (0 - 0) + (2 - 0) + (3 - 0) -
      [(TextType.CodeAndComment, "a/*b".toList), (TextType.CodeAndComment, "c*/d".toList),
        (TextType.CppStyleComment, "//e".toList)].countP
          (fun l => l.1 = TextType.CodeAndComment) = 3) :=
  ⟨rfl, textAnalyzer_classifies_every_line 0 ⟨0, 0, 0, 0⟩ ⟨0, 0, 2, 3⟩
    ["a/*b".toList, "c*/d".toList, "//e".toList]
    [(TextType.CodeAndComment, "a/*b".toList), (TextType.CodeAndComment, "c*/d".toList),
        (TextType.CppStyleComment, "//e".toList)] rfl⟩

/-- C2 (evaluated at the failing input): on the one-line file whose line is the
single character `/`, the second test of the `for` loop calls `at(1)` on a string
of length 1 and `textAnalyzer` ends with `std::out_of_range`. -/
theorem textAnalyzer_single_slash_throws (dflt : Nat) (c : Counters) :
    textAnalyzer dflt c (untagged [['/']]) = .error .outOfRange := by
  rfl

/-- C3: a first line that does not begin with `/` or `"` and whose first `/` is
followed at once by another `/` (the line is `x :: a ++ "//" ++ b` with no `/` in
`x :: a`) is tagged CodeAndComment, it adds 1 to the code count and 1 to the comment
count, and the remaining lines are tagged, and counted, exactly as `textAnalyzer`
tags and counts them as a file of their own. -/
theorem textAnalyzer_code_then_line_comment (dflt : Nat) (c : Counters) (x : Char)
    (a b : Str) (rest : List Str) (hx : x ≠ '/') (hq : x ≠ '"') (ha : '/' ∉ a) :
    textAnalyzer dflt c (untagged ((x :: (a ++ '/' :: '/' :: b)) :: rest)) =
      (textAnalyzer dflt c (untagged rest)).map
        (fun x1 => ({ x1.1 with commLinesNum := x1.1.commLinesNum + 1,
                                codeLinesNum := x1.1.codeLinesNum + 1 },
          (TextType.CodeAndComment, x :: (a ++ '/' :: '/' :: b)) :: x1.2)) := by
  refine textAnalyzer_cons_of_next dflt c _ .CodeAndComment rest ?_
  have hf : find (x :: (a ++ '/' :: '/' :: b)) '/' 0 = some (a.length + 1) := by
    refine findIf_eq_some _ _ 0 _ '/' (Nat.zero_le _)
      (by simpa using getElem?_append_at a ('/' :: b) '/') (by simp) ?_
    intro k ch _ hk hch
    cases k with
    | zero => simp at hch; subst hch; simpa using hx
    | succ k =>
      have hmem : ch ∈ a :=
        mem_of_getElem?_append a _ k ch (by omega) (by simpa using hch)
      have : ch ≠ '/' := fun e => ha (e ▸ hmem)
      simpa using this
  have hs : subscript (x :: (a ++ '/' :: '/' :: b)) (a.length + 1 + 1) = some '/' := by
    have hle : a.length + 1 + 1 ≤ (x :: (a ++ '/' :: '/' :: b)).length := by simp
    rw [subscript, if_pos hle, List.getElem?_cons_succ, getElem?_append_at_succ a b '/' '/']
    rfl
  simp [textAnalyzerBody, untagged, startsWith2, strAt, setFirst, hx, hq, hf, hs]

/-- C3, on Scenario A: the line `int x = 5; // set x`, stripped, followed by the
line `y`. -/
theorem textAnalyzer_code_then_line_comment_witness :
    ('i' ≠ '/' ∧ 'i' ≠ '"' ∧ '/' ∉ "ntx=5;".toList) ∧
      textAnalyzer 0 ⟨0, 0, 0, 0⟩
          (untagged (('i' :: ("ntx=5;".toList ++ '/' :: '/' :: "setx".toList)) ::
            ["y".toList])) =
        .ok (⟨0, 0, 2, 1⟩,
          [(TextType.CodeAndComment, "intx=5;//setx".toList), (TextType.Code, "y".toList)]) :=
  ⟨⟨by decide, by decide, by decide⟩,
    (textAnalyzer_code_then_line_comment 0 ⟨0, 0, 0, 0⟩ 'i' "ntx=5;".toList "setx".toList
      ["y".toList] (by decide) (by decide) (by decide)).trans rfl⟩

/-- C4: in a file whose first line begins with `/*`, whose lines `0 .. k-1` (the
first line and the lines `mid`, so `k = mid.length + 1 ≥ 1`) contain no `*/`, and
whose line `k` is `a ++ "*/" ++ b` with that `*/` its first and without blanks after
it, the lines `0 .. k-1` are tagged CStyleComment and line `k` is tagged
CStyleComment when the `*/` ends the line (`b` empty) and CodeAndComment when a
character follows; the lines after `k` are tagged, and counted, as a file of their
own. -/
theorem textAnalyzer_block_closes_on_later_line (dflt : Nat) (c : Counters) (tl : Str)
    (mid : List Str) (a b : Str) (rest : List Str)
    (hno : ∀ l ∈ ('/' :: '*' :: tl) :: mid, ¬ ['*', '/'] <:+: l)
    (ha : ¬ ['*', '/'] <:+: a ++ ['*'])
    (hb : ∀ ch ∈ b, ch ≠ ' ' ∧ ch ≠ '\t') :
    textAnalyzer dflt c
        (untagged (('/' :: '*' :: tl) :: (mid ++ (a ++ '*' :: '/' :: b) :: rest))) =
      (textAnalyzer dflt c (untagged rest)).map
        (fun x => ({ x.1 with
              commLinesNum := x.1.commLinesNum + (mid.length + 1) + 1,
              codeLinesNum := x.1.codeLinesNum + (if b = [] then 0 else 1) },
          (('/' :: '*' :: tl) :: mid).map (fun s => (TextType.CStyleComment, s)) ++
            (if b = [] then TextType.CStyleComment else TextType.CodeAndComment,
              a ++ '*' :: '/' :: b) :: x.2)) :=
  textAnalyzer_block_closed_later_stripped dflt c tl mid a b rest hno ha hb

/-- C4, on Scenario C: the file `/* start`, `end */ int y;`, stripped. -/
theorem textAnalyzer_block_closes_on_later_line_witness :
    ((∀ l ∈ ('/' :: '*' :: "start".toList) :: [], ¬ ['*', '/'] <:+: l) ∧
      (¬ ['*', '/'] <:+: "end".toList ++ ['*']) ∧
      (∀ ch ∈ "inty;".toList, ch ≠ ' ' ∧ ch ≠ '\t')) ∧
    textAnalyzer 0 ⟨0, 0, 0, 0⟩
        (untagged (('/' :: '*' :: "start".toList) ::
          ([] ++ ("end".toList ++ '*' :: '/' :: "inty;".toList) :: []))) =
      .ok (⟨0, 0, 1, 2⟩,
        [(TextType.CStyleComment, "/*start".toList),
          (TextType.CodeAndComment, "end*/inty;".toList)]) :=
  ⟨⟨by decide, by decide, by decide⟩,
    (textAnalyzer_block_closes_on_later_line 0 ⟨0, 0, 0, 0⟩ "start".toList [] "end".toList
      "inty;".toList [] (by decide) (by decide) (by decide)).trans rfl⟩

/-- C5: on a file of `n ≥ 1` lines whose first line begins with `/*` and none of
whose lines contains `*/`, `textAnalyzer` returns without fault, every line, the
empty ones too, is tagged CStyleComment, the comment count grows by `n` and the
other counters are unchanged. -/
theorem textAnalyzer_unterminated_block (dflt : Nat) (c : Counters) (tl : Str)
    (others : List Str)
    (hno : ∀ l ∈ ('/' :: '*' :: tl) :: others, ¬ ['*', '/'] <:+: l) :
    textAnalyzer dflt c (untagged (('/' :: '*' :: tl) :: others)) =
      .ok ({ c with commLinesNum := c.commLinesNum + (others.length + 1) },
        (('/' :: '*' :: tl) :: others).map (fun s => (TextType.CStyleComment, s))) :=
  textAnalyzer_all_comment dflt c tl others hno

/-- C5, on the file `/* unterminated`, an empty line, `int x;`. -/
theorem textAnalyzer_unterminated_block_witness :
    (∀ l ∈ ('/' :: '*' :: "unterminated".toList) :: [[], "intx;".toList],
        ¬ ['*', '/'] <:+: l) ∧
      textAnalyzer 0 ⟨0, 0, 0, 0⟩
          (untagged (('/' :: '*' :: "unterminated".toList) :: [[], "intx;".toList])) =
        .ok (⟨0, 0, 0, 3⟩,
          [(TextType.CStyleComment, '/' :: '*' :: "unterminated".toList),
            (TextType.CStyleComment, []), (TextType.CStyleComment, "intx;".toList)]) :=
  ⟨by decide,
    textAnalyzer_unterminated_block 0 ⟨0, 0, 0, 0⟩ "unterminated".toList
      [[], "intx;".toList] (by decide)⟩

/-- C6 (evaluated at the failing input): the one-line file `"//"`, a string literal
holding two slashes with nothing after its closing quote, is tagged CodeAndComment
and adds 1 to the comment count: `processQuotes` searches for `/` from the character
after the opening quote. -/
theorem textAnalyzer_slashes_in_quotes (dflt : Nat) (c : Counters) :
    textAnalyzer dflt c (untagged [['"', '/', '/', '"']]) =
      .ok ({ c with commLinesNum := c.commLinesNum + 1, codeLinesNum := c.codeLinesNum + 1 },
        [(TextType.CodeAndComment, ['"', '/', '/', '"'])]) := by
  rfl

/-- C7 (counterexample): in the file `/*a*/x;/*b`, `c`, scanned from the beginning of
the first line, the first line is tagged CodeAndComment and the second line is tagged
Code, not comment-only; the same holds for the second and third line of `/*a`,
`*/x;/*b`, `c`, where the comment is closed on a later line. -/
theorem textAnalyzer_no_rescan_counterexample :
    textAnalyzer 0 ⟨0, 0, 0, 0⟩ (untagged ["/*a*/x;/*b".toList, "c".toList]) =
        .ok (⟨0, 0, 2, 1⟩,
          [(TextType.CodeAndComment, "/*a*/x;/*b".toList), (TextType.Code, "c".toList)]) ∧
      textAnalyzer 0 ⟨0, 0, 0, 0⟩ (untagged ["/*a".toList, "*/x;/*b".toList, "c".toList]) =
        .ok (⟨0, 0, 2, 2⟩,
          [(TextType.CStyleComment, "/*a".toList),
            (TextType.CodeAndComment, "*/x;/*b".toList), (TextType.Code, "c".toList)]) :=
  ⟨rfl, rfl⟩

/-- C7 (amended): a block comment is opened on the first line by the first `/` of
the line, at the start of the line or after code that does not begin with a quote,
and is closed by the first `*/` that stands after the two characters of its opener,
on the same line (the comment text `a` not beginning with `/`) or on a later line
(after the lines `mid`); a character other than a blank follows that `*/`. Then the
closing line is tagged CodeAndComment and the scan returns: whatever follows the
`*/`, a new `/*` included, the lines after it are tagged, and counted, as a file of
their own. -/
theorem textAnalyzer_no_rescan_after_close (dflt : Nat) (c : Counters)
    (code a b t : Str) (mid rest : List Str)
    (hc1 : '/' ∉ code) (hc2 : code.head? ≠ some '"')
    (ha : ¬ ['*', '/'] <:+: a ++ ['*'])
    (hb : ∃ ch ∈ b, ch ≠ ' ' ∧ ch ≠ '\t') :
    (a.head? ≠ some '/' → (code = [] → dflt ≤ a.length + 2) →
      textAnalyzer dflt c
          (untagged ((code ++ '/' :: '*' :: (a ++ '*' :: '/' :: b)) :: rest)) =
        (textAnalyzer dflt c (untagged rest)).map
          (fun x => ({ x.1 with
                commLinesNum := x.1.commLinesNum + 1,
                codeLinesNum := x.1.codeLinesNum + 1 },
            (TextType.CodeAndComment, code ++ '/' :: '*' :: (a ++ '*' :: '/' :: b)) ::
              x.2))) ∧
    (¬ ['*', '/'] <:+: '/' :: '*' :: t → (∀ l ∈ mid, ¬ ['*', '/'] <:+: l) →
      textAnalyzer dflt c
          (untagged ((code ++ '/' :: '*' :: t) :: (mid ++ (a ++ '*' :: '/' :: b) :: rest))) =
        (textAnalyzer dflt c (untagged rest)).map
          (fun x => ({ x.1 with
                commLinesNum := x.1.commLinesNum + (mid.length + 1) + 1,
                codeLinesNum := x.1.codeLinesNum + (if code = [] then 0 else 1) + 1 },
            (if code = [] then TextType.CStyleComment else TextType.CodeAndComment,
                code ++ '/' :: '*' :: t) ::
              (mid.map (fun s => (TextType.CStyleComment, s)) ++
                (TextType.CodeAndComment, a ++ '*' :: '/' :: b) :: x.2)))) := by
  have hf : ¬ find_first_not_of (a ++ '*' :: '/' :: b) (a.length + 2) = none := by
    rw [find_first_not_of_after_closer]
    intro hall
    obtain ⟨ch, hch, h1, h2⟩ := hb
    have := hall ch hch
    simp [isblank] at this
    rcases this with h | h
    · exact h1 h
    · exact h2 h
  cases code with
  | nil =>
    refine ⟨fun hs hd => ?_, fun ht hmid => ?_⟩
    · rw [List.nil_append, textAnalyzer_block_closed_same dflt c a b rest hs ha (hd rfl)
        .CodeAndComment (by
          have e := find_first_not_of_after_closer ('/' :: '*' :: a) b
          have hne : ¬ find_first_not_of ('/' :: '*' :: a ++ '*' :: '/' :: b)
              (('/' :: '*' :: a).length + 2) = none := by
            rw [e]
            rw [find_first_not_of_after_closer] at hf
            exact hf
          simp only [List.cons_append, List.length_cons] at hne
          rw [if_neg hne])]
      simp [tally]
    · rw [List.nil_append, textAnalyzer_block_closed_later dflt c t mid a b rest
        (by
          intro l hl
          rcases List.mem_cons.1 hl with h | h
          · rw [h]; exact ht
          · exact hmid l h)
        ha .CodeAndComment (by rw [if_neg hf])]
      simp [tally, Nat.add_assoc]
  | cons x cd =>
    have hx : x ≠ '/' := fun h => hc1 (by rw [h]; exact List.mem_cons_self _ _)
    have hcd : '/' ∉ cd := fun h => hc1 (List.mem_cons_of_mem _ h)
    have hq : x ≠ '"' := fun h => hc2 (by rw [h]; rfl)
    refine ⟨fun hs _ => ?_, fun ht hmid => ?_⟩
    · rw [List.cons_append, textAnalyzer_code_block_closed_same dflt c x cd a b rest hx hq
        hcd hs ha]
      simp [tally]
    · rw [List.cons_append, textAnalyzer_code_block_closed_later dflt c x cd t mid a b rest
        hx hq hcd ht hmid ha .CodeAndComment (by rw [if_neg hf])]
      simp only [tally]
      congr 1
      funext y
      simp
      omega

/-- C7 (amended), on the files `x/*a*/y;/*b`, `c` and `x/*a`, `a*/y;/*b`, `c`. -/
theorem textAnalyzer_no_rescan_after_close_witness :
    ('/' ∉ "x".toList ∧ "x".toList.head? ≠ some '"' ∧
      (¬ ['*', '/'] <:+: "a".toList ++ ['*']) ∧
      (∃ ch ∈ "y;/*b".toList, ch ≠ ' ' ∧ ch ≠ '\t') ∧
      "a".toList.head? ≠ some '/' ∧ ("x".toList = [] → 0 ≤ "a".toList.length + 2) ∧
      (¬ ['*', '/'] <:+: '/' :: '*' :: "a".toList) ∧
      (∀ l ∈ ([] : List Str), ¬ ['*', '/'] <:+: l)) ∧
    textAnalyzer 0 ⟨0, 0, 0, 0⟩ (untagged ["x/*a*/y;/*b".toList, "c".toList]) =
      .ok (⟨0, 0, 2, 1⟩,
        [(TextType.CodeAndComment, "x/*a*/y;/*b".toList), (TextType.Code, "c".toList)]) ∧
    textAnalyzer 0 ⟨0, 0, 0, 0⟩
        (untagged ["x/*a".toList, "a*/y;/*b".toList, "c".toList]) =
      .ok (⟨0, 0, 3, 2⟩,
        [(TextType.CodeAndComment, "x/*a".toList),
          (TextType.CodeAndComment, "a*/y;/*b".toList), (TextType.Code, "c".toList)]) :=
  ⟨⟨by decide, by decide, by decide, ⟨'y', by decide, by decide, by decide⟩, by decide,
      fun _ => Nat.zero_le _, by decide, by decide⟩,
    ((textAnalyzer_no_rescan_after_close 0 ⟨0, 0, 0, 0⟩ "x".toList "a".toList
      "y;/*b".toList "a".toList [] ["c".toList] (by decide) (by decide) (by decide)
      ⟨'y', by decide, by decide, by decide⟩).1 (by decide)
        (fun _ => Nat.zero_le _)).trans rfl,
    ((textAnalyzer_no_rescan_after_close 0 ⟨0, 0, 0, 0⟩ "x".toList "a".toList
      "y;/*b".toList "a".toList [] ["c".toList] (by decide) (by decide) (by decide)
      ⟨'y', by decide, by decide, by decide⟩).2 (by decide) (by decide)).trans rfl⟩

/-- C8 (counterexample): in the file `/*`, empty line, `*/` the empty middle line is
tagged CStyleComment and counted as a comment line; the blank count stays 0. -/
theorem textAnalyzer_empty_line_in_comment_counterexample :
    textAnalyzer 0 ⟨0, 0, 0, 0⟩ (untagged ["/*".toList, [], "*/".toList]) =
      .ok (⟨0, 0, 0, 3⟩,
        [(TextType.CStyleComment, "/*".toList), (TextType.CStyleComment, []),
          (TextType.CStyleComment, "*/".toList)]) :=
  rfl

/-- C8 (amended): an empty line that the `for` loop reaches (the lines before it
tagged `done`, the lines from it on still untouched) is tagged BlankLine and counted
as a blank line, and the lines after it are tagged as a file of their own.  An empty
line inside an open block comment (after a first line beginning with `/*`, no line up
to it containing `*/`) is tagged CStyleComment and counted as a comment line, and the
comment stays open: the lines after it are tagged CStyleComment to the end of the
file when no line contains `*/`, and up to the first line containing `*/` otherwise. -/
theorem textAnalyzer_empty_line (dflt : Nat) (c : Counters) (whole done : Text)
    (rest : List Str) (tl : Str) (m1 m2 : List Str) (a b : Str) (rest' : List Str)
    (hreach : ∀ r, Halts (textAnalyzerBody dflt) (done ++ untagged ([] :: rest), done.length) r →
      Halts (textAnalyzerBody dflt) (whole, 0) r)
    (hno : ∀ l ∈ ('/' :: '*' :: tl) :: (m1 ++ [] :: m2), ¬ ['*', '/'] <:+: l)
    (ha : ¬ ['*', '/'] <:+: a ++ ['*'])
    (hb : ∀ ch ∈ b, ch ≠ ' ' ∧ ch ≠ '\t') :
    textAnalyzer dflt c whole =
        (textAnalyzer dflt c (untagged rest)).map
          (fun x => ({ (done.foldl tally x.1) with
                blankLinesNum := (done.foldl tally x.1).blankLinesNum + 1 },
            done ++ (TextType.BlankLine, []) :: x.2)) ∧
      textAnalyzer dflt c (untagged (('/' :: '*' :: tl) :: (m1 ++ [] :: m2))) =
        .ok ({ c with commLinesNum := c.commLinesNum + ((m1 ++ [] :: m2).length + 1) },
          (('/' :: '*' :: tl) :: m1).map (fun s => (TextType.CStyleComment, s)) ++
            (TextType.CStyleComment, []) ::
              m2.map (fun s => (TextType.CStyleComment, s))) ∧
      textAnalyzer dflt c
          (untagged (('/' :: '*' :: tl) ::
            ((m1 ++ [] :: m2) ++ (a ++ '*' :: '/' :: b) :: rest'))) =
        (textAnalyzer dflt c (untagged rest')).map
          (fun x => ({ x.1 with
                commLinesNum := x.1.commLinesNum + ((m1 ++ [] :: m2).length + 1) + 1,
                codeLinesNum := x.1.codeLinesNum + (if b = [] then 0 else 1) },
            (('/' :: '*' :: tl) :: m1).map (fun s => (TextType.CStyleComment, s)) ++
              (TextType.CStyleComment, []) ::
                (m2.map (fun s => (TextType.CStyleComment, s)) ++
                  (if b = [] then TextType.CStyleComment else TextType.CodeAndComment,
                    a ++ '*' :: '/' :: b) :: x.2))) := by
  refine ⟨?_, ?_, ?_⟩
  · have hstep : textAnalyzerBody dflt (done ++ untagged ([] :: rest), done.length) =
        .next ((done ++ [(TextType.BlankLine, [])]) ++ untagged rest,
          (done ++ [(TextType.BlankLine, [])]).length) := by
      have := textAnalyzerBody_append dflt done (untagged ([] :: rest)) 0
      rw [Nat.add_zero] at this
      rw [this]
      simp [textAnalyzerBody, untagged, setFirst]
    rw [textAnalyzer_after_done dflt c whole (done ++ [(TextType.BlankLine, [])])
      (untagged rest) (fun r hr => hreach r (Halts.next hstep hr))]
    congr 1
    funext x
    simp [List.foldl_append, tally]
  · rw [textAnalyzer_all_comment dflt c tl (m1 ++ [] :: m2) hno]
    simp
  · rw [textAnalyzer_block_closed_later_stripped dflt c tl (m1 ++ [] :: m2) a b rest' hno ha hb]
    congr 1
    funext x
    simp

/-- C8 (amended), on the files `x`, empty line, `y` and `/*`, empty line, `z` and
`/*`, empty line, `z`, `*/w`. -/
theorem textAnalyzer_empty_line_witness :
    ((∀ l ∈ ('/' :: '*' :: []) :: ([] ++ [] :: ["z".toList]), ¬ ['*', '/'] <:+: l) ∧
      (¬ ['*', '/'] <:+: [] ++ ['*']) ∧ (∀ ch ∈ "w".toList, ch ≠ ' ' ∧ ch ≠ '\t')) ∧
    (textAnalyzer 0 ⟨0, 0, 0, 0⟩ (untagged ["x".toList, [], "y".toList]) =
        .ok (⟨0, 1, 2, 0⟩,
          [(TextType.Code, "x".toList), (TextType.BlankLine, []),
            (TextType.Code, "y".toList)]) ∧
      textAnalyzer 0 ⟨0, 0, 0, 0⟩ (untagged ["/*".toList, [], "z".toList]) =
        .ok (⟨0, 0, 0, 3⟩,
          [(TextType.CStyleComment, "/*".toList), (TextType.CStyleComment, []),
            (TextType.CStyleComment, "z".toList)]) ∧
      textAnalyzer 0 ⟨0, 0, 0, 0⟩ (untagged ["/*".toList, [], "z".toList, "*/w".toList]) =
        .ok (⟨0, 0, 1, 4⟩,
          [(TextType.CStyleComment, "/*".toList), (TextType.CStyleComment, []),
            (TextType.CStyleComment, "z".toList),
            (TextType.CodeAndComment, "*/w".toList)])) :=
  have h := textAnalyzer_empty_line 0 ⟨0, 0, 0, 0⟩ (untagged ["x".toList, [], "y".toList])
    [(TextType.Code, "x".toList)] ["y".toList] [] [] ["z".toList] [] "w".toList []
    (fun _ hr => Halts.next rfl hr) (by decide) (by decide) (by decide)
  ⟨⟨by decide, by decide, by decide⟩, h.1.trans rfl, h.2.1.trans rfl, h.2.2.trans rfl⟩

/-- C9: the text that is classified is the raw line without its spaces and tabs, the
other characters kept in order; and when no raw line of a file contains `/` or `"`,
`textAnalyzer` returns without fault, a line is tagged BlankLine if it consists
solely of spaces and tabs and Code otherwise, the blank count grows by the number of
the former, the code count by the number of the latter, and the comment count is
unchanged. -/
theorem textAnalyzer_plain_file (dflt : Nat) (c : Counters) (raw : List Str)
    (h : ∀ l ∈ raw, '/' ∉ l ∧ '"' ∉ l) :
    strings (loadText raw) =
        raw.map (fun l => l.filter (fun ch => !(ch == ' ' || ch == '\t'))) ∧
      textAnalyzer dflt c (loadText raw) =
        .ok ({ c with
            blankLinesNum := c.blankLinesNum +
              raw.countP (fun l => l.all (fun ch => ch == ' ' || ch == '\t')),
            codeLinesNum := c.codeLinesNum +
              raw.countP (fun l => !(l.all (fun ch => ch == ' ' || ch == '\t'))) },
          raw.map (fun l =>
            (if l.all (fun ch => ch == ' ' || ch == '\t') then TextType.BlankLine
              else TextType.Code,
              l.filter (fun ch => !(ch == ' ' || ch == '\t'))))) := by
  constructor
  · simp [strings, loadText, stripBlanks, isblank, List.map_map, Function.comp_def]
  · have hload : ∀ r : List Str, loadText r = untagged (r.map stripBlanks) := by
      intro r; simp [loadText, untagged, List.map_map, Function.comp_def]
    rw [hload]
    induction raw generalizing c with
    | nil => rfl
    | cons l raw ih =>
      obtain ⟨h1, h2⟩ := h l (List.mem_cons_self _ _)
      have ih' := ih c (fun l' hl' => h l' (List.mem_cons_of_mem _ hl'))
      have hs1 : '/' ∉ stripBlanks l := fun hm => h1 (List.mem_of_mem_filter hm)
      have hs2 : '"' ∉ stripBlanks l := fun hm => h2 (List.mem_of_mem_filter hm)
      rw [List.map_cons, textAnalyzer_plain_line dflt c _ _ hs1 hs2, ih']
      have hnil := stripBlanks_eq_nil l
      by_cases hall : l.all (fun ch => ch == ' ' || ch == '\t') = true
      · have e : stripBlanks l = [] := hnil.mpr hall
        simp only [e, Except.map, if_true, tally, List.map_cons, List.countP_cons, hall,
          Bool.not_true]
        have e' : l.filter (fun ch => !(ch == ' ' || ch == '\t')) = [] := e
        rw [e']
        simp only [Bool.false_eq_true, if_false, Nat.add_zero, Nat.add_assoc]
      · have e : ¬ stripBlanks l = [] := fun he => hall (hnil.mp he)
        have hall' : l.all (fun ch => ch == ' ' || ch == '\t') = false := by
          simpa using hall
        simp only [e, Except.map, if_false, tally, List.map_cons, List.countP_cons, hall',
          Bool.not_false]
        have e' : stripBlanks l = l.filter (fun ch => !(ch == ' ' || ch == '\t')) := rfl
        rw [e']
        simp only [Bool.false_eq_true, if_false, if_true, Nat.add_zero, Nat.add_assoc]

/-- C9, on the raw lines `int x;` (with a space), a line of one space and one tab,
and the empty line. -/
theorem textAnalyzer_plain_file_witness :
    (∀ l ∈ ["int x;".toList, [' ', '\t'], []], '/' ∉ l ∧ '"' ∉ l) ∧
    (strings (loadText ["int x;".toList, [' ', '\t'], []]) =
        ["intx;".toList, [], []] ∧
      textAnalyzer 0 ⟨0, 0, 0, 0⟩ (loadText ["int x;".toList, [' ', '\t'], []]) =
        .ok (⟨0, 2, 1, 0⟩,
          [(TextType.Code, "intx;".toList), (TextType.BlankLine, []),
            (TextType.BlankLine, [])])) :=
  have h := textAnalyzer_plain_file 0 ⟨0, 0, 0, 0⟩ ["int x;".toList, [' ', '\t'], []]
    (by decide)
  ⟨by decide, h.1.trans rfl, h.2.trans rfl⟩

/-- C10: a first line beginning with `//` is tagged CppStyleComment whatever follows
the two slashes, it adds 1 to the comment count and nothing to the other counters,
and the remaining lines are tagged, and counted, exactly as `textAnalyzer` tags and
counts them as a file of their own; when that call faults, so does this one. -/
theorem textAnalyzer_line_comment_first (dflt : Nat) (c : Counters) (tl : Str)
    (rest : List Str) :
    textAnalyzer dflt c (untagged (('/' :: '/' :: tl) :: rest)) =
      (textAnalyzer dflt c (untagged rest)).map
        (fun x => ({ x.1 with commLinesNum := x.1.commLinesNum + 1 },
          (TextType.CppStyleComment, '/' :: '/' :: tl) :: x.2)) := by
  refine textAnalyzer_cons_of_next dflt c _ .CppStyleComment rest ?_
  simp [textAnalyzerBody, untagged, startsWith2, strAt, setFirst]

/-- C11: when `textAnalyzer` classifies a file without fault, the blank count has
grown by the number of lines it leaves tagged BlankLine, the code count by the number
tagged Code plus the number tagged CodeAndComment, the comment count by the number
tagged CStyleComment plus the number tagged CppStyleComment plus the number tagged
CodeAndComment, the count of files is untouched, and no counter has decreased. -/
theorem textAnalyzer_counts_final_tags (dflt : Nat) (c c' : Counters) (lines : List Str)
    (text' : Text) (h : textAnalyzer dflt c (untagged lines) = .ok (c', text')) :
    c'.blankLinesNum =
        c.blankLinesNum + text'.countP (fun l => l.1 = TextType.BlankLine) ∧
      c'.codeLinesNum =
        c.codeLinesNum + text'.countP (fun l => l.1 = TextType.Code) +
          text'.countP (fun l => l.1 = TextType.CodeAndComment) ∧
      c'.commLinesNum =
        c.commLinesNum + text'.countP (fun l => l.1 = TextType.CStyleComment) +
          text'.countP (fun l => l.1 = TextType.CppStyleComment) +
          text'.countP (fun l => l.1 = TextType.CodeAndComment) ∧
      c'.filesNum = c.filesNum ∧
      c.blankLinesNum ≤ c'.blankLinesNum ∧ c.codeLinesNum ≤ c'.codeLinesNum ∧
      c.commLinesNum ≤ c'.commLinesNum := by
  unfold textAnalyzer at h
  cases hr : run (textAnalyzerBody dflt) ((untagged lines).length + 1) (untagged lines, 0) with
  | error e => rw [hr] at h; cases h
  | ok t =>
    rw [hr] at h
    simp only [Except.map, Except.ok.injEq, Prod.mk.injEq] at h
    obtain ⟨hc, ht⟩ := h
    subst ht
    obtain ⟨i0, i1, i2, i3⟩ := foldl_tally_counts t c
    rw [hc] at i0 i1 i2 i3
    refine ⟨i1, i2, i3, i0, ?_, ?_, ?_⟩ <;> omega

/-- C11, on the file `x`, empty line, `//c`, `y//e`, `/*d`. -/
theorem textAnalyzer_counts_final_tags_witness :
    textAnalyzer 0 ⟨7, 1, 2, 3⟩
        (untagged ["x".toList, [], "//c".toList, "y//e".toList, "/*d".toList]) =
      .ok (⟨7, 2, 4, 6⟩,
        [(TextType.Code, "x".toList), (TextType.BlankLine, []),
          (TextType.CppStyleComment, "//c".toList), (TextType.CodeAndComment, "y//e".toList),
          (TextType.CStyleComment, "/*d".toList)]) ∧
    (2 = 1 + [(TextType.Code, "x".toList), (TextType.BlankLine, []),
          (TextType.CppStyleComment, "//c".toList), (TextType.CodeAndComment, "y//e".toList),
          (TextType.CStyleComment, "/*d".toList)].countP
            (fun l => l.1 = TextType.BlankLine) ∧
      4 = 2 + [(TextType.Code, "x".toList), (TextType.BlankLine, []),
          (TextType.CppStyleComment, "//c".toList), (TextType.CodeAndComment, "y//e".toList),
          (TextType.CStyleComment, "/*d".toList)].countP
            (fun l => l.1 = TextType.Code) +
        [(TextType.Code, "x".toList), (TextType.BlankLine, []),
          (TextType.CppStyleComment, "//c".toList), (TextType.CodeAndComment, "y//e".toList),
          (TextType.CStyleComment, "/*d".toList)].countP
            (fun l => l.1 = TextType.CodeAndComment) ∧
      6 = 3 + [(TextType.Code, "x".toList), (TextType.BlankLine, []),
          (TextType.CppStyleComment, "//c".toList), (TextType.CodeAndComment, "y//e".toList),
          (TextType.CStyleComment, "/*d".toList)].countP
            (fun l => l.1 = TextType.CStyleComment) +
        [(TextType.Code, "x".toList), (TextType.BlankLine, []),
          (TextType.CppStyleComment, "//c".toList), (TextType.CodeAndComment, "y//e".toList),
          (TextType.CStyleComment, "/*d".toList)].countP
            (fun l => l.1 = TextType.CppStyleComment) +
        [(TextType.Code, "x".toList), (TextType.BlankLine, []),
          (TextType.CppStyleComment, "//c".toList), (TextType.CodeAndComment, "y//e".toList),
          (TextType.CStyleComment, "/*d".toList)].countP
            (fun l => l.1 = TextType.CodeAndComment) ∧
      7 = 7 ∧ 1 ≤ 2 ∧ 2 ≤ 4 ∧ 3 ≤ 6) :=
  ⟨rfl, textAnalyzer_counts_final_tags 0 ⟨7, 1, 2, 3⟩ ⟨7, 2, 4, 6⟩
    ["x".toList, [], "//c".toList, "y//e".toList, "/*d".toList]
    [(TextType.Code, "x".toList), (TextType.BlankLine, []),
          (TextType.CppStyleComment, "//c".toList), (TextType.CodeAndComment, "y//e".toList),
          (TextType.CStyleComment, "/*d".toList)] rfl⟩

/-- C12 (counterexample): for one file and a hardware concurrency reported as
`2^31`, a value of the unsigned type that `std::thread::hardware_concurrency`
returns, the conversion to `int` gives `-2^31` and that is the pool size: it is not
`min(ceil(1 / 2), 2^31) = 1` and not at least 1. -/
theorem numOfThreads_counterexample :
    numOfThreads 1 2147483648 = -2147483648 := by
  decide

/-- C12 (amended): for every file count `n` with `1 ≤ n` and `n + 1 < 2^32` and
every reported hardware concurrency `h < 2^31` (the values that the `int` variables
of `allocateWork` hold without wrapping), the pool size is `min(ceil(n / 2), a)`
with `a = 4` if `h = 0` and `a = h` otherwise, it is at least 1, and the divisor of
the later division is not zero, so `step` is computed; for `n = 5`, `h = 8` the pool
size is 3. -/
theorem numOfThreads_in_range (n h : Nat) (hn : 1 ≤ n) (hn2 : n + 1 < 2 ^ 32)
    (hh : h < 2 ^ 31) :
    numOfThreads n h = ((min ⌈(n : ℚ) / 2⌉₊ (if h = 0 then 4 else h) : Nat) : Int) ∧
      1 ≤ numOfThreads n h ∧ toSize (numOfThreads n h) ≠ 0 ∧
      (∃ s, step n h = some s) ∧ numOfThreads 5 8 = 3 := by
  have e := numOfThreads_eq n h hn2 hh
  have h1 : 1 ≤ numOfThreads n h := by
    rw [e]
    by_cases h0 : h = 0
    · simp only [h0, if_true]; omega
    · simp only [h0, if_false]; omega
  have h2 : numOfThreads n h < 2 ^ 31 := by
    rw [e]
    by_cases h0 : h = 0
    · simp only [h0, if_true]; omega
    · simp only [h0, if_false]; omega
  have h3 : toSize (numOfThreads n h) ≠ 0 := by
    unfold toSize
    omega
  refine ⟨?_, h1, h3, ?_, by decide⟩
  · rw [e, ceil_half]
    by_cases h0 : h = 0
    · simp only [h0, if_true]; omega
    · simp only [h0, if_false]; omega
  · unfold step
    rw [if_neg h3]
    exact ⟨_, rfl⟩

/-- C12 (amended), on Scenario E: 5 files, hardware concurrency 8. -/
theorem numOfThreads_in_range_witness :
    (1 ≤ 5 ∧ 5 + 1 < 2 ^ 32 ∧ 8 < 2 ^ 31) ∧
      (numOfThreads 5 8 = ((min ⌈((5 : Nat) : ℚ) / 2⌉₊ (if 8 = 0 then 4 else 8) : Nat) : Int) ∧
        1 ≤ numOfThreads 5 8 ∧ toSize (numOfThreads 5 8) ≠ 0 ∧
        (∃ s, step 5 8 = some s) ∧ numOfThreads 5 8 = 3) :=
  ⟨⟨by decide, by decide, by decide⟩,
    numOfThreads_in_range 5 8 (by decide) (by decide) (by decide)⟩

/-- C13: when every file of a queue that opens is classified by `textAnalyzer`
without fault, the tasks that process the queue one after another all return without
fault, the counters they leave are the starting counters plus the contribution of
each file, a contribution being what processing that file alone adds to zeroed
counters, and for every permutation of the queue the four counters left are the
same. -/
theorem runTasks_order_independent {Path : Type} (dflt : Nat)
    (fs : Path → Option (List Str)) (q1 q2 : List Path) (c : Counters)
    (hp : q1.Perm q2)
    (hok : ∀ p ∈ q1, ∀ raw, fs p = some raw →
      ∃ x, textAnalyzer dflt ⟨0, 0, 0, 0⟩ (loadText raw) = .ok x) :
    (runTasks dflt fs q1.length { files := q1, counters := c }).counters =
        (runTasks dflt fs q2.length { files := q2, counters := c }).counters ∧
      (runTasks dflt fs q1.length { files := q1, counters := c }).counters =
        q1.foldl (fun acc p => addCounters acc (contribution dflt fs p)) c ∧
      ∀ k, (processFile dflt fs
        (runTasks dflt fs k { files := q1, counters := c })).2 = none := by
  refine ⟨?_, ?_, ?_⟩
  · rw [runTasks_eq, runTasks_eq]
    simp only [List.take_length]
    exact List.Perm.foldl_eq' hp (fun x _ y _ z =>
      addCounters_right_comm z (contribution dflt fs x) (contribution dflt fs y)) c
  · rw [runTasks_eq]
    simp only [List.take_length]
  · intro k
    rw [runTasks_eq]
    cases hd : q1.drop k with
    | nil => rfl
    | cons p rest =>
      have hmem : p ∈ q1 := List.mem_of_mem_drop (hd ▸ List.mem_cons_self p rest)
      simp only [processFile]
      cases hf : fs p with
      | none => rfl
      | some raw =>
        obtain ⟨x, hx⟩ := hok p hmem raw hf
        simp only
        rw [textAnalyzer_counters, hx]
        rfl

/-- C13, on the queue `[0, 1]` and its reversal, file `0` holding the lines `x`,
`//c` and file `1` an empty line and `/*a`. -/
theorem runTasks_order_independent_witness :
    (List.Perm [0, 1] [1, 0] ∧
      ∀ p ∈ [0, 1], ∀ raw,
        (fun p : Nat => if p = 0 then some ["x".toList, "//c".toList]
          else some [[], "/*a".toList]) p = some raw →
        ∃ x, textAnalyzer 0 ⟨0, 0, 0, 0⟩ (loadText raw) = .ok x) ∧
    ((runTasks 0 (fun p : Nat => if p = 0 then some ["x".toList, "//c".toList]
          else some [[], "/*a".toList]) [0, 1].length
        { files := [0, 1], counters := ⟨0, 0, 0, 0⟩ }).counters = ⟨2, 1, 1, 2⟩ ∧
      (runTasks 0 (fun p : Nat => if p = 0 then some ["x".toList, "//c".toList]
          else some [[], "/*a".toList]) [1, 0].length
        { files := [1, 0], counters := ⟨0, 0, 0, 0⟩ }).counters = ⟨2, 1, 1, 2⟩) := by
  have hok : ∀ p ∈ [0, 1], ∀ raw,
      (fun p : Nat => if p = 0 then some ["x".toList, "//c".toList]
        else some [[], "/*a".toList]) p = some raw →
      ∃ x, textAnalyzer 0 ⟨0, 0, 0, 0⟩ (loadText raw) = .ok x := by
    intro p hp raw hraw
    simp only [List.mem_cons, List.mem_singleton, List.not_mem_nil, or_false] at hp
    rcases hp with rfl | rfl
    · simp only [if_true, Option.some.injEq] at hraw
      subst hraw
      exact ⟨_, rfl⟩
    · simp only [Nat.succ_ne_zero, if_false, Option.some.injEq] at hraw
      subst hraw
      exact ⟨_, rfl⟩
  have h := runTasks_order_independent 0
    (fun p : Nat => if p = 0 then some ["x".toList, "//c".toList]
      else some [[], "/*a".toList]) [0, 1] [1, 0] ⟨0, 0, 0, 0⟩ (List.Perm.swap 1 0 []) hok
  exact ⟨⟨List.Perm.swap 1 0 [], hok⟩, rfl, h.1.symm.trans rfl⟩

/-- C14: `processFile` on a queue whose first file opens and has no lines removes
that path, adds 1 to the count of files and leaves the blank, code and comment
counts as they were; the call returns without fault. -/
theorem processFile_empty_file {Path : Type} (dflt : Nat) (fs : Path → Option (List Str))
    (file : Path) (rest : List Path) (c : Counters) (h : fs file = some []) :
    processFile dflt fs { files := file :: rest, counters := c } =
      ({ files := rest, counters := { c with filesNum := c.filesNum + 1 } }, none) := by
  simp only [processFile, h]
  rfl

/-- C14, on the queue `[0, 1]` where file `0` is empty. -/
theorem processFile_empty_file_witness :
    (fun p : Nat => if p = 0 then some ([] : List Str) else none) 0 = some [] ∧
      processFile 0 (fun p : Nat => if p = 0 then some ([] : List Str) else none)
          { files := [0, 1], counters := ⟨3, 4, 5, 6⟩ } =
        ({ files := [1], counters := ⟨4, 4, 5, 6⟩ }, none) :=
  ⟨rfl, processFile_empty_file 0 (fun p : Nat => if p = 0 then some ([] : List Str) else none)
    0 [1] ⟨3, 4, 5, 6⟩ rfl⟩

/-- C15: `processFile` on a queue whose first file cannot be opened returns with the
four counters unchanged and with that path, and no other, removed from the queue; a
later run of `k` tasks therefore does what it does on the remaining queue. -/
theorem processFile_cannot_open {Path : Type} (dflt : Nat) (fs : Path → Option (List Str))
    (file : Path) (rest : List Path) (c : Counters) (k : Nat) (h : fs file = none) :
    processFile dflt fs { files := file :: rest, counters := c } =
        ({ files := rest, counters := c }, none) ∧
      runTasks dflt fs (k + 1) { files := file :: rest, counters := c } =
        runTasks dflt fs k { files := rest, counters := c } := by
  have e : processFile dflt fs { files := file :: rest, counters := c } =
      ({ files := rest, counters := c }, none) := by
    simp only [processFile, h]
  exact ⟨e, by simp only [runTasks, e]⟩

/-- C15, on the queue `[0, 1]` where file `0` cannot be opened and file `1` holds
the line `x`. -/
theorem processFile_cannot_open_witness :
    (fun p : Nat => if p = 1 then some ["x".toList] else none) 0 = none ∧
      (processFile 0 (fun p : Nat => if p = 1 then some ["x".toList] else none)
            { files := [0, 1], counters := ⟨3, 4, 5, 6⟩ } =
          ({ files := [1], counters := ⟨3, 4, 5, 6⟩ }, none) ∧
        runTasks 0 (fun p : Nat => if p = 1 then some ["x".toList] else none) (1 + 1)
            { files := [0, 1], counters := ⟨3, 4, 5, 6⟩ } =
          { files := [], counters := ⟨4, 4, 6, 6⟩ }) :=
  have h := processFile_cannot_open 0
    (fun p : Nat => if p = 1 then some ["x".toList] else none) 0 [1] ⟨3, 4, 5, 6⟩ 1 rfl
  ⟨rfl, h.1, h.2.trans rfl⟩

/-- C16 (evaluated at the failing input): the queue holds the four paths 0, 1, 2, 3,
every file is empty, and the worker of the pool runs each task as soon as it is
handed over.  `allocateWork` hands two tasks to the pool, not four: after the second
task the queue holds two paths and the loop variable is 2.  The paths 2 and 3 are
never popped, the queue is not empty after the last task and two files are counted. -/
theorem allocateWork_schedules_fewer_tasks (dflt h : Nat) :
    (allocateWork dflt (fun _ : Nat => some []) (fun _ => 1) h
        { files := [0, 1, 2, 3], counters := ⟨0, 0, 0, 0⟩ }).map
      (Option.map (fun r => (r.tasks, r.waiting, r.object))) =
      .ok (some (2, 0, { files := [2, 3], counters := ⟨2, 0, 0, 0⟩ })) := by
  rfl

/-- C18: `textAnalyzer` terminates on every vector of lines.  From every state the
`while (true)` loop of `processCStyleComment`, that of `processQuotes` and the `for`
loop of `textAnalyzer` return after finitely many passes; a pass of the first that
does not return moves to the next line or moves the scan position forward on the
current line, a pass of the second moves to a later line or moves the scan position
forward, a pass of the third moves to a later line; and the three functions, run with
the bound on passes they are given here, never reach that bound. -/
theorem textAnalyzer_terminates (dflt : Nat) :
    (∀ st, ∃ r, Halts processCStyleCommentBody st r) ∧
      (∀ st st', processCStyleCommentBody st = .next st' →
        st'.2.1 = st.2.1 + 1 ∨ (st'.2.1 = st.2.1 ∧ st.2.2 < st'.2.2)) ∧
      (∀ st, ∃ r, Halts processQuotesBody st r) ∧
      (∀ st st', processQuotesBody st = .next st' →
        st.2.1 < st'.2.1 ∨ (st'.2.1 = st.2.1 ∧ st.2.2 < st'.2.2)) ∧
      (∀ st, ∃ r, Halts (textAnalyzerBody dflt) st r) ∧
      (∀ st st', textAnalyzerBody dflt st = .next st' → st.2 < st'.2) ∧
      (∀ text i pos, processCStyleComment text i pos ≠ .error .fuel) ∧
      (∀ text i, processQuotes text i ≠ .error .fuel) ∧
      ∀ c text, textAnalyzer dflt c text ≠ .error .fuel := by
  refine ⟨?_, processCStyleCommentBody_progress, ?_, processQuotesBody_progress, ?_, ?_,
    processCStyleComment_ne_fuel, processQuotes_ne_fuel, ?_⟩
  · intro st
    obtain ⟨r, hr⟩ := Option.isSome_iff_exists.mp
      (processCStyleCommentBody_isSome _ st (Nat.lt_succ_self _))
    exact ⟨r, halts_of_iterate _ _ _ hr⟩
  · intro st
    obtain ⟨r, hr⟩ := Option.isSome_iff_exists.mp
      (processQuotesBody_isSome _ st (Nat.lt_succ_self _))
    exact ⟨r, halts_of_iterate _ _ _ hr⟩
  · intro st
    obtain ⟨r, hr⟩ := Option.isSome_iff_exists.mp
      (textAnalyzerBody_isSome dflt _ st (Nat.lt_succ_self _))
    exact ⟨r, halts_of_iterate _ _ _ hr⟩
  · rintro ⟨text, i⟩ st' h
    exact (textAnalyzerBody_next dflt text i st' h).2.1
  · intro c text h
    have := textAnalyzer_error dflt c text _ h
    cases this

/-- C19 (evaluated at the failing input): in the file `x/*/`, `y` the scan for the
closing marker starts at the `/` of the opener, takes the `*` of the opener and the
`/` after it as `*/`, and returns; the second line is tagged Code and adds nothing to
the comment count. -/
theorem textAnalyzer_opener_star_closes (dflt : Nat) (c : Counters) :
    textAnalyzer dflt c (untagged ["x/*/".toList, "y".toList]) =
      .ok ({ c with commLinesNum := c.commLinesNum + 1,
                    codeLinesNum := c.codeLinesNum + 1 + 1 },
        [(TextType.CodeAndComment, "x/*/".toList), (TextType.Code, "y".toList)]) := by
  rfl

/-- C20: a first line that does not begin with `/` or `"` and whose first `/` is
followed by a character other than `/` and `*`, or by nothing (the line is
`x :: a ++ "/" ++ b` with no `/` in `x :: a` and `b` not beginning with `/` or `*`),
is tagged Code and adds 1 to the code count and nothing to the comment count,
whatever `b` holds; the remaining lines are tagged, and counted, as a file of their
own. -/
theorem textAnalyzer_first_slash_decides (dflt : Nat) (c : Counters) (x : Char)
    (a b : Str) (rest : List Str) (hx : x ≠ '/') (hq : x ≠ '"') (ha : '/' ∉ a)
    (hb1 : b.head? ≠ some '/') (hb2 : b.head? ≠ some '*') :
    textAnalyzer dflt c (untagged ((x :: (a ++ '/' :: b)) :: rest)) =
      (textAnalyzer dflt c (untagged rest)).map
        (fun x1 => ({ x1.1 with codeLinesNum := x1.1.codeLinesNum + 1 },
          (TextType.Code, x :: (a ++ '/' :: b)) :: x1.2)) := by
  refine textAnalyzer_cons_of_next dflt c _ .Code rest ?_
  have hf := find_first_slash x a b hx ha
  have hle : a.length + 1 + 1 ≤ (x :: (a ++ '/' :: b)).length := by simp
  cases b with
  | nil =>
    have hs : subscript (x :: (a ++ ['/'])) (a.length + 1 + 1) = some (Char.ofNat 0) := by
      rw [subscript, if_pos hle, List.getElem?_cons_succ,
        List.getElem?_eq_none (by simp)]
      rfl
    have h1 : ¬ (Char.ofNat 0 = '/') := by decide
    have h2 : ¬ (Char.ofNat 0 = '*') := by decide
    simp [textAnalyzerBody, untagged, startsWith2, strAt, setFirst, hx, hq, hf, hs, h1, h2]
  | cons y b' =>
    have hs : subscript (x :: (a ++ '/' :: y :: b')) (a.length + 1 + 1) = some y := by
      rw [subscript, if_pos hle, List.getElem?_cons_succ, getElem?_append_at_succ a b' '/' y]
      rfl
    have h1 : ¬ (y = '/') := fun e => hb1 (by simp [e])
    have h2 : ¬ (y = '*') := fun e => hb2 (by simp [e])
    simp [textAnalyzerBody, untagged, startsWith2, strAt, setFirst, hx, hq, hf, hs, h1, h2]

/-- C20, on the file `a=b/c;//half`, `y`. -/
theorem textAnalyzer_first_slash_decides_witness :
    ('a' ≠ '/' ∧ 'a' ≠ '"' ∧ '/' ∉ "=b".toList ∧ "c;//half".toList.head? ≠ some '/' ∧
        "c;//half".toList.head? ≠ some '*') ∧
      textAnalyzer 0 ⟨0, 0, 0, 0⟩
          (untagged (('a' :: ("=b".toList ++ '/' :: "c;//half".toList)) :: ["y".toList])) =
        .ok (⟨0, 0, 2, 0⟩,
          [(TextType.Code, "a=b/c;//half".toList), (TextType.Code, "y".toList)]) :=
  ⟨⟨by decide, by decide, by decide, by decide, by decide⟩,
    (textAnalyzer_first_slash_decides 0 ⟨0, 0, 0, 0⟩ 'a' "=b".toList "c;//half".toList
      ["y".toList] (by decide) (by decide) (by decide) (by decide) (by decide)).trans rfl⟩

end CppFileAnalyzer
